import Mathlib

/-!
Verification of the klogg core indexing engine (`src/logdata/src/logdataworker.cpp`).

The C++ code is shallowly embedded: bytes are `Nat` (values 0..255), signed
64-bit quantities (`qint64`, `qsizetype`, `LineLength::UnderlyingType`) are
`Int`, truncating C++ `/` and `%` are `Int.tdiv` / `Int.tmod`.  Loops whose
C++ termination argument is "the position strictly advances inside the block"
are written with an explicit fuel that is always chosen large enough.
External collaborators that are not part of the sources (Qt codecs, the
xxhash digest library, `EncodingParameters`, `calculateProgress`) are
modelled from the specification, as noted at each definition.
-/

set_option maxHeartbeats 1000000

/-- Modelled from the spec: codecs are opaque identifiers; the only codec the
core itself ever names is the locale-default fallback
(`QTextCodec::codecForLocale()`). -/
inductive CodecId where
  | localeDefault : CodecId
  | other : Nat → CodecId
deriving DecidableEq, Repr

/-- Modelled from the spec: `EncodingParameters(codec)` yields
`lineFeedWidth ∈ {1, 2, 4}` and `lineFeedIndex ∈ {0, width − 1}`
(`encodingdetector.h` is not among the sources). -/
structure EncodingParameters where
  lineFeedWidth : Nat := 1
  lineFeedIndex : Nat := 0
deriving DecidableEq, Repr

/-- Modelled from the spec: `beforeCrOffset` translates a hit byte address
back to the code-unit boundary; it equals `lineFeedIndex` (0 for the LE
encodings, width − 1 for the BE ones). -/
def EncodingParameters.getBeforeCrOffset (p : EncodingParameters) : Nat :=
  p.lineFeedIndex

-- constexpr int IndexingBlockSize = 1 * 1024 * 1024;
def IndexingBlockSize : Nat := 1 * 1024 * 1024

-- TabStop = 8 (fixed compile-time constant, spec §6).
def TabStop : Int := 8

-- LineLength::UnderlyingType is a 32-bit signed int; its maximum value.
def LineLengthMax : Int := 2147483647

-- `std::string_view::find(c)`: index of the first occurrence, `none` for npos.
def svFind : List Nat → Nat → Option Nat
  | [], _ => none
  | c :: rest, d => if c = d then some 0 else (svFind rest d).map (· + 1)

-- `std::string_view::find(c, start)`: first occurrence at index ≥ start.
def svFindFrom (data : List Nat) (d : Nat) (start : Nat) : Option Nat :=
  (svFind (data.drop start) d).map (· + start)

/-- The rejection test inside `findNextMultiByteDelimeter` (lines 286-307):
a candidate at `checkPos` is **not** a genuine delimiter when its
`lineFeedWidth − 1` neighbours (forward when `lineFeedIndex == 0`, backward
otherwise) leave the slice or contain a non-zero byte.  `lineFeedWidth ≥ 1`
always holds for parameters derived from a codec; the `Nat` subtraction
`lineFeedWidth - 1` agrees with the C++ unsigned arithmetic in that range. -/
def isNotDelimeter (params : EncodingParameters) (data : List Nat)
    (checkPos : Nat) : Bool :=
  let lineFeedWidth := params.lineFeedWidth
  let isCheckForward := params.lineFeedIndex = 0
  if isCheckForward ∧ checkPos + lineFeedWidth > data.length then
    true
  else if ¬isCheckForward ∧ checkPos < lineFeedWidth - 1 then
    true
  else
    (List.range' 1 (lineFeedWidth - 1)).any fun i =>
      (if isCheckForward then data.getD (checkPos + i) 0
       else data.getD (checkPos - i) 0) ≠ 0

-- The `while (nextDelimeter != npos && isNotDelimeter(nextDelimeter))` loop
-- of `findNextMultiByteDelimeter`; candidates strictly advance, so fuel
-- `data.length + 1` is never exhausted.
def mbFindGo (params : EncodingParameters) (data : List Nat) (d : Nat) :
    Nat → Option Nat → Option Nat
  | _, none => none
  | 0, some k => some k
  | fuel + 1, some k =>
    if isNotDelimeter params data k then
      mbFindGo params data d fuel (svFindFrom data d (k + 1))
    else
      some k

-- findNextMultiByteDelimeter (lines 277-314).
def findNextMultiByteDelimeter (params : EncodingParameters)
    (data : List Nat) (d : Nat) : Option Nat :=
  mbFindGo params data d (data.length + 1) (svFind data d)

-- findNextSingleByteDelimeter (lines 316-320).
def findNextSingleByteDelimeter (_ : EncodingParameters) (data : List Nat)
    (d : Nat) : Option Nat :=
  svFind data d

def FindDelimeter : Type :=
  EncodingParameters → List Nat → Nat → Option Nat

/-- expandTabsInLine (lines 332-360).  The C++ walks a shrinking view of the
block; `viewOffsetWithinBlock` is the offset of `blockToExpand` inside the
enclosing block (the C++ recovers it from pointer distance via
`charOffsetWithinBlock`), `posWithinBlock` is the line start used as origin
of the column count.  Fuel `blockToExpand.length` suffices because every
iteration drops at least one byte. -/
def expandTabsInLine (fuel : Nat) (blockToExpand : List Nat)
    (viewOffsetWithinBlock posWithinBlock : Int) (params : EncodingParameters)
    (findNextDelimeter : FindDelimeter)
    (initialAdditionalSpaces : Int) : Int :=
  match fuel with
  | 0 => initialAdditionalSpaces
  | fuel + 1 =>
    if blockToExpand.isEmpty then
      initialAdditionalSpaces
    else
      match findNextDelimeter params blockToExpand 9 with
      | none => initialAdditionalSpaces
      | some nextTab =>
        let tabPosWithinBlock : Int :=
          viewOffsetWithinBlock + (nextTab : Int) -
            (params.getBeforeCrOffset : Int)
        let currentExpandedSize :=
          tabPosWithinBlock - posWithinBlock + initialAdditionalSpaces
        let additionalSpaces :=
          initialAdditionalSpaces +
            (TabStop - currentExpandedSize.tmod TabStop - 1)
        if blockToExpand.length ≤ nextTab then
          additionalSpaces
        else
          expandTabsInLine fuel (blockToExpand.drop (nextTab + 1))
            (viewOffsetWithinBlock + (nextTab : Int) + 1) posWithinBlock
            params findNextDelimeter additionalSpaces

/-- IndexingState (declared in `logdataworker.h`, used by lines 362-436;
field list per spec §3).  Codec bookkeeping is reduced to the detector
output `encodingGuess`; the effective codec's derived `encodingParams` are
passed explicitly to the parsing functions. -/
structure IndexingState where
  pos : Int := 0
  end_ : Int := 0
  additional_spaces : Int := 0
  max_length : Int := 0
  file_size : Int := 0
  encodingGuess : Option CodecId := none
deriving DecidableEq, Repr

/-- findNextLineFeed (lines 362-383).  Returns
`(isEndOfBlock, posWithinBlock, additionalSpaces)`. -/
def findNextLineFeed (params : EncodingParameters)
    (findNextDelimeter : FindDelimeter) (block : List Nat)
    (posWithinBlock : Int) (state : IndexingState) : Bool × Int × Int :=
  let blockView := block.drop posWithinBlock.toNat
  let nextLineFeed := findNextDelimeter params blockView 10
  let isEndOfBlock := nextLineFeed.isNone
  let nextLineSize : Nat :=
    match nextLineFeed with
    | some k => k
    | none => blockView.length
  let additionalSpaces :=
    expandTabsInLine (blockView.take nextLineSize).length
      (blockView.take nextLineSize) posWithinBlock posWithinBlock params
      findNextDelimeter state.additional_spaces
  (isEndOfBlock,
   posWithinBlock + (nextLineSize : Int) - (params.getBeforeCrOffset : Int),
   additionalSpaces)

/-- The while loop of `IndexOperation::parseDataBlock` (lines 400-433).
Returns the appended line positions and the final state.  The position
strictly advances inside the block on every recursive call, so fuel
`block.length + 2` is never exhausted. -/
def parseDataBlockGo (fuel : Nat) (blockBeginning : Int) (block : List Nat)
    (params : EncodingParameters) (findNextDelimeter : FindDelimeter)
    (state : IndexingState) (acc : List Int) : List Int × IndexingState :=
  match fuel with
  | 0 => (acc, state)
  | fuel + 1 =>
    if state.pos > blockBeginning + (block.length : Int) then
      -- "Trying to parse out of block": error logged, loop broken.
      (acc, state)
    else
      let posWithinBlock : Int :=
        if state.pos ≥ blockBeginning then state.pos - blockBeginning else 0
      if posWithinBlock = (block.length : Int) then
        -- isEndOfBlock at loop entry: one final max-length update, then exit.
        let currentDataEnd := posWithinBlock + blockBeginning
        let length :=
          (currentDataEnd - state.pos).tdiv (params.lineFeedWidth : Int) +
            state.additional_spaces
        (acc, { state with max_length := max state.max_length length })
      else
        let step := findNextLineFeed params findNextDelimeter block
          posWithinBlock state
        let isEndOfBlock := step.1
        let posWithinBlock' := step.2.1
        let additionalSpaces := step.2.2
        let currentDataEnd := posWithinBlock' + blockBeginning
        let length :=
          (currentDataEnd - state.pos).tdiv (params.lineFeedWidth : Int) +
            additionalSpaces
        let maxLength := max state.max_length length
        if isEndOfBlock then
          (acc, { state with additional_spaces := additionalSpaces,
                             max_length := maxLength })
        else
          parseDataBlockGo fuel blockBeginning block params findNextDelimeter
            { state with
                pos := currentDataEnd + (params.lineFeedWidth : Int),
                end_ := currentDataEnd,
                additional_spaces := 0,
                max_length := maxLength }
            (acc ++ [currentDataEnd + (params.lineFeedWidth : Int)])

/-- IndexOperation::parseDataBlock (lines 386-436): chooses the single- or
multi-byte scanner and runs the block loop. -/
def parseDataBlock (blockBeginning : Int) (block : List Nat)
    (params : EncodingParameters) (state : IndexingState) :
    List Int × IndexingState :=
  let findNextDelimeter : FindDelimeter :=
    if params.lineFeedWidth = 1 then findNextSingleByteDelimeter
    else findNextMultiByteDelimeter
  parseDataBlockGo (block.length + 2) blockBeginning block params
    findNextDelimeter state []

/-- FastLinePositionArray: a batch of line positions plus the fake-final-LF
marker (`linepositionarray.h` is not among the sources; the flag semantics
follow spec §3, "the array also carries a flag ..."). -/
structure FastLinePositionArray where
  positions : List Int := []
  fakeFinalLF : Bool := false
deriving DecidableEq, Repr

/-- Modelled from the spec: `FileDigest` (xxhash) is an incremental digest of
the bytes fed to it.  The digest is modelled injectively as the fed byte
sequence itself; the code only ever compares digests for equality. -/
def digest (bytes : List Nat) : List Nat :=
  bytes

/-- IndexedHash: the stored fingerprint (field list per spec §3 and the uses
at lines 640-670, 790-874). -/
structure IndexedHash where
  size : Int := 0
  fullDigest : List Nat := []
  headerDigest : List Nat := []
  headerSize : Int := 0
  tailDigest : List Nat := []
  tailOffset : Int := 0
  tailSize : Int := 0
deriving DecidableEq, Repr

/-- IndexingData: the shared store (lines 65-157).  `hashBuilder` records the
bytes fed to the rolling full-file digest. -/
structure IndexingData where
  maxLength : Int := 0
  hash : IndexedHash := {}
  hashBuilder : List Nat := []
  linePosition : List Int := []
  fakeFinalLF : Bool := false
  encodingGuess : Option CodecId := none
  encodingForced : Option CodecId := none
  progress : Int := 0
  useFastModificationDetection : Bool := false
deriving DecidableEq, Repr

/-- IndexingData::addAll (lines 110-127).  `append_list` adopts the batch's
fake-final-LF flag (spec §3). -/
def IndexingData.addAll (d : IndexingData) (block : List Nat)
    (length : Int) (linePosition : FastLinePositionArray)
    (encoding : Option CodecId) : IndexingData :=
  { d with
    maxLength := max d.maxLength length
    linePosition := d.linePosition ++ linePosition.positions
    fakeFinalLF := d.fakeFinalLF || linePosition.fakeFinalLF
    hash :=
      if block.isEmpty then d.hash
      else
        { d.hash with
          size := d.hash.size + (block.length : Int)
          fullDigest :=
            if d.useFastModificationDetection then d.hash.fullDigest
            else digest (d.hashBuilder ++ block) }
    hashBuilder :=
      if block.isEmpty || d.useFastModificationDetection then d.hashBuilder
      else d.hashBuilder ++ block
    encodingGuess := encoding }

/-- IndexingData::clear (lines 139-152); `fastConfig` is
`Configuration::get().fastModificationDetection()`. -/
def IndexingData.clear (fastConfig : Bool) (_ : IndexingData) : IndexingData :=
  { useFastModificationDetection := fastConfig }

def IndexingData.setEncodingGuess (d : IndexingData)
    (codec : Option CodecId) : IndexingData :=
  { d with encodingGuess := codec }

def IndexingData.forceEncoding (d : IndexingData)
    (codec : Option CodecId) : IndexingData :=
  { d with encodingForced := codec }

def IndexingData.setProgress (d : IndexingData) (progress : Int) :
    IndexingData :=
  { d with progress := progress }

def IndexingData.setHeaderHash (d : IndexingData) (dig : List Nat)
    (size : Int) : IndexingData :=
  { d with hash := { d.hash with headerDigest := dig, headerSize := size } }

def IndexingData.setTailHash (d : IndexingData) (dig : List Nat)
    (offset size : Int) : IndexingData :=
  { d with hash :=
      { d.hash with tailDigest := dig, tailOffset := offset,
                    tailSize := size } }

-- IndexingData::getIndexedSize (lines 65-68).
def IndexingData.getIndexedSize (d : IndexingData) : Int :=
  d.hash.size

/-- The block stream produced by `readFileInBlocks` (lines 465-513): 1 MiB
blocks `(blockBeginning, bytes)` read sequentially from offset `off`; a
short read shrinks the final block.  The terminating sentinel `(-1, empty)`
is dropped here because `indexNextBlock` ignores it (line 522).  Fuel
`file.length` suffices for any block size ≥ 1. -/
def chunksGo (blockSize : Nat) : Nat → Nat → List Nat → List (Nat × List Nat)
  | 0, _, _ => []
  | fuel + 1, off, file =>
    if file.isEmpty then []
    else (off, file.take blockSize) ::
      chunksGo blockSize fuel (off + blockSize) (file.drop blockSize)

def chunks (blockSize off : Nat) (file : List Nat) : List (Nat × List Nat) :=
  chunksGo blockSize file.length off file

/-- Modelled from the spec: `calculateProgress(pos, file_size)` is
`clamp(pos * 100 / file_size, 0, 100)` (`progress.h` is not among the
sources). -/
def calculateProgress (pos fileSize : Int) : Int :=
  max 0 (min 100 ((pos * 100).tdiv fileSize))

/-- Observable actions of an indexing run: emitted progress signals and the
finalization steps whose occurrence the spec constrains. -/
inductive IndexAction where
  | emittedProgress : Int → IndexAction
  | appendedFakeLF : IndexAction
  | computedHeaderHash : IndexAction
  | computedTailHash : IndexAction
  | clearedStore : IndexAction
deriving DecidableEq, Repr

/-- The file as the operation sees it: whether `QFile::open` succeeds and the
on-disk bytes. -/
structure FileModel where
  canOpen : Bool := true
  content : List Nat := []
deriving DecidableEq, Repr

/-- IndexOperation::indexNextBlock (lines 515-557) for a real (non-sentinel)
block.  `detected` is the encoding detector's output (external component);
`guessEncoding` (lines 438-463) keeps an existing guess and otherwise adopts
the detector's. -/
def indexNextBlockModel (params : EncodingParameters) (detected : CodecId)
    (state : IndexingState) (d : IndexingData) (blockBeginning : Nat)
    (block : List Nat) : IndexingState × IndexingData × List IndexAction :=
  let guess := state.encodingGuess.getD detected
  let state := { state with encodingGuess := some guess }
  if block.isEmpty then
    (state, d.setEncodingGuess (some guess), [])
  else
    let parsed := parseDataBlock (blockBeginning : Int) block params state
    let linePositions := parsed.1
    let state' := parsed.2
    let maxLength :=
      if state'.max_length > LineLengthMax then LineLengthMax
      else state'.max_length
    let d' := d.addAll block maxLength ⟨linePositions, false⟩ (some guess)
    let progress :=
      if state'.file_size > 0 then calculateProgress state'.pos state'.file_size
      else 100
    if progress ≠ d'.progress then
      (state', d'.setProgress progress, [IndexAction.emittedProgress progress])
    else
      (state', d', [])

/-- The serial parser node draining the block queue in order (lines 620-633):
a left fold of `indexNextBlock` over the emitted blocks. -/
def indexBlocksGo (params : EncodingParameters) (detected : CodecId) :
    List (Nat × List Nat) → IndexingState → IndexingData → List IndexAction →
    IndexingState × IndexingData × List IndexAction
  | [], state, d, events => (state, d, events)
  | blk :: rest, state, d, events =>
    let r := indexNextBlockModel params detected state d blk.1 blk.2
    indexBlocksGo params detected rest r.1 r.2.1 (events ++ r.2.2)

/-- IndexOperation::doIndex (lines 559-702).  `interrupt` is the value of the
atomic interrupt flag (set-once per run; `true` means every poll observes
it).  `params` are the encoding parameters of the effective codec and
`fastConfig` is `Configuration::fastModificationDetection()`.  Returns the
final store and the list of observable actions in order. -/
def doIndexModel (params : EncodingParameters) (fastConfig : Bool)
    (detected : CodecId) (blockSize : Nat) (interrupt : Bool)
    (file : FileModel) (initialPosition : Int) (d : IndexingData) :
    IndexingData × List IndexAction :=
  if ¬file.canOpen then
    -- Open failure: empty index, locale-default guess, 100% progress.
    let d1 := (((d.clear fastConfig).setEncodingGuess
      (some CodecId.localeDefault)).setProgress 100)
    (d1, [IndexAction.emittedProgress 100])
  else
    let state0 : IndexingState :=
      { pos := initialPosition, file_size := (file.content.length : Int),
        encodingGuess := d.encodingGuess }
    let rest := file.content.drop initialPosition.toNat
    -- The reader polls the flag before each block; with the flag set it
    -- emits no blocks (only the sentinel).
    let blocks :=
      if interrupt then [] else chunks blockSize initialPosition.toNat rest
    let folded := indexBlocksGo params detected blocks state0 d []
    let state1 := folded.1
    let d1 := folded.2.1
    let events1 := folded.2.2
    -- Fake final LF for a non-LF-terminated file (lines 640-649).
    let fakeStep :=
      if ¬interrupt ∧ state1.file_size > state1.pos then
        (d1.addAll [] 0 ⟨[state1.file_size + 1], true⟩ state1.encodingGuess,
         [IndexAction.appendedFakeLF])
      else (d1, ([] : List IndexAction))
    let d2 := fakeStep.1
    let events2 := fakeStep.2
    -- Header/tail rehash (lines 651-670), performed unconditionally.
    let endFilePos : Int :=
      if interrupt then initialPosition
      else initialPosition + (rest.length : Int)
    let headerBytes := file.content.take blockSize
    let headerHashSize : Int := (headerBytes.length : Int)
    let d3 := d2.setHeaderHash (digest headerBytes) headerHashSize
    let tailStep :=
      if endFilePos ≤ (blockSize : Int) then
        (d3.setTailHash (digest headerBytes) 0 headerHashSize,
         [IndexAction.computedHeaderHash, IndexAction.computedTailHash])
      else
        let tailHashOffset := endFilePos - (blockSize : Int)
        let tailBytes := (file.content.drop tailHashOffset.toNat).take blockSize
        (d3.setTailHash (digest tailBytes) tailHashOffset
          (tailBytes.length : Int),
         [IndexAction.computedHeaderHash, IndexAction.computedTailHash])
    let d4 := tailStep.1
    let events3 := tailStep.2
    -- Interrupted runs clear the store (lines 686-688).
    let clearStep :=
      if interrupt then (IndexingData.clear fastConfig d4,
        [IndexAction.clearedStore])
      else (d4, ([] : List IndexAction))
    let d5 := clearStep.1
    let events4 := clearStep.2
    -- "Lines too long" fatal error (lines 690-697).
    let d6 :=
      if d5.maxLength = LineLengthMax then IndexingData.clear fastConfig d5
      else d5
    -- Fall back to the locale codec when no guess was made (lines 699-701).
    let d7 :=
      if d6.encodingGuess = none then
        d6.setEncodingGuess (some CodecId.localeDefault)
      else d6
    (d7, events1 ++ events2 ++ events3 ++ events4)

inductive LoadingStatus where
  | Successful : LoadingStatus
  | Interrupted : LoadingStatus
deriving DecidableEq, Repr

-- LogDataWorker::onIndexingFinished (lines 254-264).
def loadingStatusOf (result : Bool) : LoadingStatus :=
  if result then LoadingStatus.Successful else LoadingStatus.Interrupted

/-- FullIndexOperation::run (lines 705-737), non-throwing path: emit 0%,
clear the store, record the forced encoding, index from offset 0; the
result is `false` exactly when the interrupt flag is set.  Returns
`(store, events, result)`. -/
def fullIndexRun (params : EncodingParameters) (fastConfig : Bool)
    (detected : CodecId) (blockSize : Nat) (interrupt : Bool)
    (forcedEncoding : Option CodecId) (file : FileModel) (d : IndexingData) :
    IndexingData × List IndexAction × Bool :=
  let d0 := (d.clear fastConfig).forceEncoding forcedEncoding
  let r := doIndexModel params fastConfig detected blockSize interrupt file 0 d0
  (r.1, IndexAction.emittedProgress 0 :: r.2,
   if interrupt then false else true)

/-- The starting offset computed by PartialIndexOperation::run
(lines 744-745): the previously indexed size. -/
def partialIndexStart (d : IndexingData) : Int :=
  d.getIndexedSize

inductive MonitoredFileStatus where
  | Unchanged : MonitoredFileStatus
  | DataAdded : MonitoredFileStatus
  | Truncated : MonitoredFileStatus
deriving DecidableEq, Repr

/-- CheckFileChangesOperation::doCheckFileChanges (lines 790-874).
`getDigest` reads up to `indexedSize` bytes from the current file position.
The real file size is the length of the on-disk content. -/
def doCheckFileChanges (fastConfig : Bool) (file : FileModel)
    (indexedHash : IndexedHash) : MonitoredFileStatus :=
  let realFileSize : Int := (file.content.length : Int)
  if realFileSize = 0 ∨ realFileSize < indexedHash.size then
    MonitoredFileStatus.Truncated
  else if ¬file.canOpen then
    MonitoredFileStatus.Truncated
  else
    let getDigest := fun (startPos : Nat) (indexedSize : Int) =>
      digest ((file.content.drop startPos).take indexedSize.toNat)
    let isFileModified :=
      if fastConfig then
        if getDigest 0 indexedHash.headerSize ≠ indexedHash.headerDigest then
          true
        else
          getDigest indexedHash.tailOffset.toNat indexedHash.tailSize ≠
            indexedHash.tailDigest
      else
        getDigest 0 indexedHash.size ≠ indexedHash.fullDigest
    if isFileModified then MonitoredFileStatus.Truncated
    else if realFileSize > indexedHash.size then MonitoredFileStatus.DataAdded
    else MonitoredFileStatus.Unchanged

/-- The operation boundary of FullIndexOperation::run /
PartialIndexOperation::run (lines 726-736, 758-769): the body either
completes with a store and a boolean result, or throws; a thrown exception
is caught, the store is cleared and the operation reports `false`.  The
total return type is the "never propagated" guarantee. -/
def runIndexOpModel (body : Except String (IndexingData × Bool))
    (fastConfig : Bool) (d : IndexingData) : IndexingData × Bool :=
  match body with
  | Except.ok r => r
  | Except.error _ => (IndexingData.clear fastConfig d, false)

/-- The operation boundary of CheckFileChangesOperation::run
(lines 772-788): a thrown exception is caught and reported as `Truncated`;
the store is left untouched. -/
def runCheckOpModel (body : Except String MonitoredFileStatus)
    (d : IndexingData) : IndexingData × MonitoredFileStatus :=
  match body with
  | Except.ok r => (d, r)
  | Except.error _ => (d, MonitoredFileStatus.Truncated)

/-- Specification-side function: the byte offsets one past each LF byte of a
byte list whose first byte sits at absolute offset `p` — the line starts the
single-byte scanner should report. -/
def lfStartsSuffix : List Nat → Int → List Int
  | [], _ => []
  | c :: rest, p =>
    if c = 10 then (p + 1) :: lfStartsSuffix rest (p + 1)
    else lfStartsSuffix rest (p + 1)

/-- Specification-side predicate (claim C3's wording): the candidate LF byte
at `k` is genuine when its `lineFeedWidth − 1` neighbouring bytes — forward
when `lineFeedIndex == 0`, backward otherwise — all lie within `data` and
are all zero. -/
def genuineDelimiterSpec (params : EncodingParameters) (data : List Nat)
    (k : Nat) : Prop :=
  if params.lineFeedIndex = 0 then
    ∀ i, 1 ≤ i → i < params.lineFeedWidth →
      k + i < data.length ∧ data.getD (k + i) 1 = 0
  else
    ∀ i, 1 ≤ i → i < params.lineFeedWidth →
      i ≤ k ∧ data.getD (k - i) 1 = 0

-- The 1-byte-LF encoding parameters (plain ASCII/UTF-8 style codecs).
def singleByteParams : EncodingParameters := { lineFeedWidth := 1, lineFeedIndex := 0 }

-- UTF-16LE encoding parameters.
def utf16leParams : EncodingParameters := { lineFeedWidth := 2, lineFeedIndex := 0 }

/-! ### Arithmetic and list helper lemmas -/

theorem neg_tmod_eq (a b : Int) : (-a).tmod b = -(a.tmod b) := by
  rw [Int.tmod_def, Int.tmod_def, Int.neg_tdiv]; ring

theorem tmod_bounds (a : Int) {b : Int} (hb : 0 < b) :
    -b < a.tmod b ∧ a.tmod b < b := by
  refine ⟨?_, Int.tmod_lt_of_pos a hb⟩
  rcases le_or_lt 0 a with ha | ha
  · have h1 := Int.tmod_nonneg b ha
    omega
  · have h4 := neg_tmod_eq (-a) b
    rw [neg_neg] at h4
    have h3 : (-a).tmod b < b := Int.tmod_lt_of_pos _ hb
    omega

theorem svFind_some_lt {v : List Nat} {d k : Nat} (h : svFind v d = some k) :
    k < v.length := by
  induction v generalizing k with
  | nil => simp [svFind] at h
  | cons c rest ih =>
    rw [svFind] at h
    by_cases hc : c = d
    · rw [if_pos hc] at h
      obtain rfl : (0 : Nat) = k := Option.some.inj h
      simp
    · simp only [if_neg hc, Option.map_eq_some'] at h
      obtain ⟨k', hk', rfl⟩ := h
      have := ih hk'
      simp only [List.length_cons]
      omega

theorem svFind_none_iff {v : List Nat} {d : Nat} :
    svFind v d = none ↔ ∀ c ∈ v, c ≠ d := by
  induction v with
  | nil => simp [svFind]
  | cons c rest ih =>
    rw [svFind]
    by_cases hc : c = d
    · simp [hc]
    · simp [hc, Option.map_eq_none', ih]

theorem lfStartsSuffix_of_svFind_none {v : List Nat}
    (h : svFind v 10 = none) : ∀ p, lfStartsSuffix v p = [] := by
  induction v with
  | nil => intro p; rfl
  | cons c rest ih =>
    intro p
    rw [svFind] at h
    by_cases hc : c = 10
    · simp [hc] at h
    · rw [lfStartsSuffix, if_neg hc]
      simp only [if_neg hc, Option.map_eq_none'] at h
      exact ih h (p + 1)

theorem lfStartsSuffix_of_svFind_some {v : List Nat} {k : Nat}
    (h : svFind v 10 = some k) :
    ∀ p, lfStartsSuffix v p =
      (p + (k : Int) + 1) ::
        lfStartsSuffix (v.drop (k + 1)) (p + (k : Int) + 1) := by
  induction v generalizing k with
  | nil => simp [svFind] at h
  | cons c rest ih =>
    intro p
    rw [svFind] at h
    by_cases hc : c = 10
    · rw [if_pos hc] at h
      obtain rfl : (0 : Nat) = k := Option.some.inj h
      rw [lfStartsSuffix, if_pos hc]
      simp
    · simp only [if_neg hc, Option.map_eq_some'] at h
      obtain ⟨k', hk', rfl⟩ := h
      rw [lfStartsSuffix, if_neg hc, ih hk' (p + 1)]
      have hdrop : (c :: rest).drop (k' + 1 + 1) = rest.drop (k' + 1) := rfl
      rw [hdrop]
      have hcast : p + 1 + (k' : Int) + 1 = p + ((k' + 1 : Nat) : Int) + 1 := by
        push_cast; ring
      rw [hcast]

theorem lfStartsSuffix_length (v : List Nat) :
    ∀ p, (lfStartsSuffix v p).length = v.count 10 := by
  induction v with
  | nil => intro p; rfl
  | cons c rest ih =>
    intro p
    rw [lfStartsSuffix]
    by_cases hc : c = 10
    · rw [if_pos hc, List.length_cons, ih, hc]
      simp [List.count_cons]
    · rw [if_neg hc, ih]
      simp [List.count_cons, hc]

theorem lfStartsSuffix_mem_bounds (v : List Nat) :
    ∀ p x, x ∈ lfStartsSuffix v p → p < x ∧ x ≤ p + (v.length : Int) := by
  induction v with
  | nil => intro p x hx; simp [lfStartsSuffix] at hx
  | cons c rest ih =>
    intro p x hx
    rw [lfStartsSuffix] at hx
    by_cases hc : c = 10
    · rw [if_pos hc] at hx
      rcases List.mem_cons.mp hx with rfl | hx
      · simp only [List.length_cons]
        push_cast
        omega
      · have := ih (p + 1) x hx
        simp only [List.length_cons]
        push_cast
        push_cast at this
        omega
    · rw [if_neg hc] at hx
      have := ih (p + 1) x hx
      simp only [List.length_cons]
      push_cast
      push_cast at this
      omega

theorem lfStartsSuffix_chain (v : List Nat) :
    ∀ p, List.Chain' (· < ·) (lfStartsSuffix v p) := by
  induction v with
  | nil => intro p; simp [lfStartsSuffix]
  | cons c rest ih =>
    intro p
    rw [lfStartsSuffix]
    by_cases hc : c = 10
    · rw [if_pos hc]
      refine List.chain'_cons'.mpr ⟨?_, ih (p + 1)⟩
      intro y hy
      exact (lfStartsSuffix_mem_bounds rest (p + 1) y
        (List.mem_of_mem_head? hy)).1
    · rw [if_neg hc]
      exact ih (p + 1)

theorem lfStartsSuffix_append (xs ys : List Nat) :
    ∀ p, lfStartsSuffix (xs ++ ys) p =
      lfStartsSuffix xs p ++ lfStartsSuffix ys (p + (xs.length : Int)) := by
  induction xs with
  | nil => intro p; simp [lfStartsSuffix]
  | cons c rest ih =>
    intro p
    rw [List.cons_append, lfStartsSuffix, lfStartsSuffix]
    have hcast : p + 1 + (rest.length : Int) = p + ((rest.length + 1 : Nat) : Int) := by
      push_cast; ring
    by_cases hc : c = 10
    · rw [if_pos hc, if_pos hc, ih (p + 1), List.cons_append, List.length_cons,
        hcast]
    · rw [if_neg hc, if_neg hc, ih (p + 1), List.length_cons, hcast]

theorem getLastD_append (xs ys : List Int) :
    ∀ q, (xs ++ ys).getLastD q = ys.getLastD (xs.getLastD q) := by
  induction xs with
  | nil => intro q; rfl
  | cons c rest ih =>
    intro q
    rw [List.cons_append, List.getLastD_cons, List.getLastD_cons, ih]

theorem lfStartsSuffix_getLastD (v : List Nat) :
    ∀ (p q : Int), q ≤ p →
      (lfStartsSuffix v p).getLastD q ≤ p + (v.length : Int) ∧
      ((lfStartsSuffix v p).getLastD q = p + (v.length : Int) ↔
        (v.getLast? = some 10 ∨ (v = [] ∧ q = p))) := by
  induction v with
  | nil =>
    intro p q hq
    simp only [lfStartsSuffix, List.getLastD_nil, List.length_nil,
      Nat.cast_zero, add_zero]
    refine ⟨hq, ?_⟩
    rw [List.getLast?_nil]
    constructor
    · intro h; exact Or.inr ⟨by trivial, h⟩
    · rintro (h | ⟨-, h⟩)
      · cases h
      · exact h
  | cons c rest ih =>
    intro p q hq
    rw [lfStartsSuffix]
    by_cases hc : c = 10
    · rw [if_pos hc, List.getLastD_cons]
      have h := ih (p + 1) (p + 1) le_rfl
      cases rest with
      | nil =>
        simp only [lfStartsSuffix, List.getLastD_nil, List.length_cons,
          List.length_nil, List.getLast?_singleton]
        constructor
        · push_cast; omega
        · constructor
          · intro _; exact Or.inl (by rw [hc])
          · intro _; push_cast; ring
      | cons c2 rest2 =>
        have hlen : p + ((c :: c2 :: rest2).length : Int) =
            p + 1 + ((c2 :: rest2).length : Int) := by
          simp only [List.length_cons]; push_cast; ring
        rw [hlen]
        refine ⟨h.1, ?_⟩
        rw [h.2]
        constructor
        · rintro (hl | ⟨hnil, -⟩)
          · exact Or.inl (by rw [List.getLast?_cons_cons]; exact hl)
          · exact absurd hnil (by simp)
        · rintro (hl | ⟨hnil, -⟩)
          · rw [List.getLast?_cons_cons] at hl
            exact Or.inl hl
          · exact absurd hnil (by simp)
    · rw [if_neg hc]
      have h := ih (p + 1) q (by omega)
      have hlen : p + ((c :: rest).length : Int) =
          p + 1 + ((rest).length : Int) := by
        simp only [List.length_cons]; push_cast; ring
      rw [hlen]
      refine ⟨h.1, ?_⟩
      rw [h.2]
      cases rest with
      | nil =>
        simp only [List.getLast?_nil, List.getLast?_singleton]
        constructor
        · rintro (hl | ⟨-, hql⟩)
          · exact absurd hl (by simp)
          · omega
        · rintro (hl | ⟨hnil, -⟩)
          · exact absurd (Option.some.inj hl) hc
          · exact absurd hnil (by simp)
      | cons c2 rest2 =>
        rw [List.getLast?_cons_cons]
        constructor
        · rintro (hl | ⟨hnil, -⟩)
          · exact Or.inl hl
          · exact absurd hnil (by simp)
        · rintro (hl | ⟨hnil, -⟩)
          · exact Or.inl hl
          · exact absurd hnil (by simp)

/-! ### Bounds on tab expansion -/

theorem expandTabsInLine_bounds (fuel : Nat) :
    ∀ (view : List Nat) (vo ps : Int) (params : EncodingParameters)
      (find : FindDelimeter) (adds : Int),
      adds ≤ expandTabsInLine fuel view vo ps params find adds ∧
      expandTabsInLine fuel view vo ps params find adds ≤
        adds + 14 * (view.length : Int) := by
  induction fuel with
  | zero =>
    intro view vo ps params find adds
    rw [expandTabsInLine]
    constructor
    · exact le_refl adds
    · have : (0 : Int) ≤ (view.length : Int) := by positivity
      omega
  | succ fuel ih =>
    intro view vo ps params find adds
    rw [expandTabsInLine]
    by_cases hemp : view.isEmpty
    · rw [if_pos hemp]
      have : (0 : Int) ≤ (view.length : Int) := by positivity
      exact ⟨le_refl adds, by omega⟩
    · rw [if_neg hemp]
      cases hf : find params view 9 with
      | none =>
        simp only
        have : (0 : Int) ≤ (view.length : Int) := by positivity
        exact ⟨le_refl adds, by omega⟩
      | some t =>
        simp only
        have hlen1 : 1 ≤ view.length := by
          cases view with
          | nil => simp at hemp
          | cons a l => simp
        have hTS : (0 : Int) < TabStop := by norm_num [TabStop]
        have hmod := tmod_bounds
          (vo + (t : Int) - (params.getBeforeCrOffset : Int) - ps + adds) hTS
        have hTSv : TabStop = 8 := rfl
        by_cases hbreak : view.length ≤ t
        · rw [if_pos hbreak]
          have hc1 : (1 : Int) ≤ (view.length : Int) := by exact_mod_cast hlen1
          constructor
          · omega
          · omega
        · rw [if_neg hbreak]
          have := ih (view.drop (t + 1)) (vo + (t : Int) + 1) ps params find
            (adds + (TabStop -
              (vo + (t : Int) - (params.getBeforeCrOffset : Int) - ps +
                adds).tmod TabStop - 1))
          have hdl : ((view.drop (t + 1)).length : Int) =
              (view.length : Int) - ((t : Int) + 1) := by
            rw [List.length_drop]
            have ht : t + 1 ≤ view.length := by omega
            omega
          rw [hdl] at this
          have hc1 : ((t : Int) + 1) ≤ (view.length : Int) := by
            have : t + 1 ≤ view.length := by omega
            exact_mod_cast this
          constructor
          · omega
          · omega

/-! ### Single-byte parsing: one step of the parseDataBlock loop -/

theorem singleByteParams_width : singleByteParams.lineFeedWidth = 1 := rfl

theorem singleByteParams_bco : singleByteParams.getBeforeCrOffset = 0 := rfl

theorem parseGo_step_end (fuel : Nat) (b : Int) (block : List Nat)
    (st : IndexingState) (acc : List Int)
    (hle : st.pos ≤ b + (block.length : Int))
    (hpwb : (if st.pos ≥ b then st.pos - b else 0) = (block.length : Int)) :
    parseDataBlockGo (fuel + 1) b block singleByteParams
      findNextSingleByteDelimeter st acc =
      (acc, { st with max_length := max st.max_length ((block.length : Int) + b - st.pos + st.additional_spaces) }) := by
  have hgt : ¬(st.pos > b + (block.length : Int)) := not_lt.mpr hle
  simp only [parseDataBlockGo]
  rw [if_neg hgt, hpwb, if_pos rfl]
  simp [singleByteParams_width, Int.tdiv_one]

theorem findNextLineFeed_single_none (block : List Nat) (start : Nat)
    (st : IndexingState) (hfind : svFind (block.drop start) 10 = none) :
    findNextLineFeed singleByteParams findNextSingleByteDelimeter block
      (start : Int) st =
      (true, (start : Int) + ((block.drop start).length : Int),
       expandTabsInLine (block.drop start).length (block.drop start)
         (start : Int) (start : Int) singleByteParams
         findNextSingleByteDelimeter st.additional_spaces) := by
  simp only [findNextLineFeed, findNextSingleByteDelimeter, Int.toNat_ofNat,
    hfind, Option.isNone_none, List.take_length, singleByteParams_bco,
    Nat.cast_zero, sub_zero]

theorem findNextLineFeed_single_some (block : List Nat) (start k : Nat)
    (st : IndexingState) (hfind : svFind (block.drop start) 10 = some k) :
    findNextLineFeed singleByteParams findNextSingleByteDelimeter block
      (start : Int) st =
      (false, (start : Int) + (k : Int),
       expandTabsInLine ((block.drop start).take k).length
         ((block.drop start).take k) (start : Int) (start : Int)
         singleByteParams findNextSingleByteDelimeter
         st.additional_spaces) := by
  simp only [findNextLineFeed, findNextSingleByteDelimeter, Int.toNat_ofNat,
    hfind, Option.isNone_some, singleByteParams_bco, Nat.cast_zero, sub_zero]

theorem parseGo_step_none (fuel : Nat) (b : Int) (block : List Nat)
    (st : IndexingState) (acc : List Int) (start : Nat)
    (hle : st.pos ≤ b + (block.length : Int))
    (hpwb : (if st.pos ≥ b then st.pos - b else 0) = (start : Int))
    (hstart : start ≤ block.length) (hne : start ≠ block.length)
    (hfind : svFind (block.drop start) 10 = none) :
    parseDataBlockGo (fuel + 1) b block singleByteParams
      findNextSingleByteDelimeter st acc =
      (acc, { st with additional_spaces := expandTabsInLine (block.drop start).length (block.drop start) (start : Int) (start : Int) singleByteParams findNextSingleByteDelimeter st.additional_spaces, max_length := max st.max_length ((block.length : Int) + b - st.pos + expandTabsInLine (block.drop start).length (block.drop start) (start : Int) (start : Int) singleByteParams findNextSingleByteDelimeter st.additional_spaces) }) := by
  have hgt : ¬(st.pos > b + (block.length : Int)) := not_lt.mpr hle
  have hne' : ((start : Int)) ≠ (block.length : Int) :=
    fun h => hne (Nat.cast_injective h)
  have hcast : (start : Int) + ((block.drop start).length : Int) =
      (block.length : Int) := by
    rw [List.length_drop]; omega
  simp only [parseDataBlockGo]
  rw [if_neg hgt, hpwb, if_neg hne',
    findNextLineFeed_single_none block start st hfind]
  simp only [singleByteParams_width, Nat.cast_one, Int.tdiv_one, hcast,
    if_true]

theorem parseGo_step_some (fuel : Nat) (b : Int) (block : List Nat)
    (st : IndexingState) (acc : List Int) (start k : Nat)
    (hle : st.pos ≤ b + (block.length : Int))
    (hpwb : (if st.pos ≥ b then st.pos - b else 0) = (start : Int))
    (hne : start ≠ block.length)
    (hfind : svFind (block.drop start) 10 = some k) :
    parseDataBlockGo (fuel + 1) b block singleByteParams
      findNextSingleByteDelimeter st acc =
      parseDataBlockGo fuel b block singleByteParams
        findNextSingleByteDelimeter
        { st with pos := (start : Int) + (k : Int) + b + 1, end_ := (start : Int) + (k : Int) + b, additional_spaces := 0, max_length := max st.max_length ((start : Int) + (k : Int) + b - st.pos + expandTabsInLine ((block.drop start).take k).length ((block.drop start).take k) (start : Int) (start : Int) singleByteParams findNextSingleByteDelimeter st.additional_spaces) }
        (acc ++ [(start : Int) + (k : Int) + b + 1]) := by
  have hgt : ¬(st.pos > b + (block.length : Int)) := not_lt.mpr hle
  have hne' : ((start : Int)) ≠ (block.length : Int) :=
    fun h => hne (Nat.cast_injective h)
  simp only [parseDataBlockGo]
  rw [if_neg hgt, hpwb, if_neg hne',
    findNextLineFeed_single_some block start k st hfind]
  simp only [singleByteParams_width, Nat.cast_one, Int.tdiv_one,
    Bool.false_eq_true, if_false]

theorem parseGo_singleByte (block : List Nat) (b : Int) (hb : 0 ≤ b) :
    ∀ (fuel start : Nat) (st : IndexingState) (acc : List Int),
      (if st.pos ≥ b then st.pos - b else 0) = (start : Int) →
      st.pos ≤ b + (block.length : Int) →
      0 ≤ st.pos →
      start ≤ block.length →
      block.length + 1 ≤ fuel + start →
      0 ≤ st.additional_spaces →
      (parseDataBlockGo fuel b block singleByteParams
          findNextSingleByteDelimeter st acc).1 =
        acc ++ lfStartsSuffix (block.drop start) (b + (start : Int)) ∧
      (parseDataBlockGo fuel b block singleByteParams
          findNextSingleByteDelimeter st acc).2.pos =
        (lfStartsSuffix (block.drop start) (b + (start : Int))).getLastD
          st.pos ∧
      (parseDataBlockGo fuel b block singleByteParams
          findNextSingleByteDelimeter st acc).2.file_size = st.file_size ∧
      (parseDataBlockGo fuel b block singleByteParams
          findNextSingleByteDelimeter st acc).2.encodingGuess =
        st.encodingGuess ∧
      (parseDataBlockGo fuel b block singleByteParams
          findNextSingleByteDelimeter st acc).2.max_length ≤
        max st.max_length (b + (block.length : Int) + st.additional_spaces +
          14 * (block.length : Int)) ∧
      0 ≤ (parseDataBlockGo fuel b block singleByteParams
          findNextSingleByteDelimeter st acc).2.additional_spaces ∧
      (parseDataBlockGo fuel b block singleByteParams
          findNextSingleByteDelimeter st acc).2.additional_spaces ≤
        st.additional_spaces + 14 * (block.length : Int) := by
  intro fuel
  induction fuel with
  | zero =>
    intro start st acc hpwb hle hpos hstart hfuel hadds
    omega
  | succ fuel ih =>
    intro start st acc hpwb hle hpos hstart hfuel hadds
    rcases eq_or_ne start block.length with rfl | hne
    · -- end of block at loop entry
      rw [parseGo_step_end fuel b block st acc hle hpwb]
      rw [List.drop_length]
      refine ⟨by simp [lfStartsSuffix], by simp [lfStartsSuffix], rfl, rfl,
        ?_, by simpa using hadds, by simpa using (by omega :
          st.additional_spaces ≤ st.additional_spaces +
            14 * (block.length : Int))⟩
      simp only
      refine max_le (le_max_left _ _) (le_trans ?_ (le_max_right _ _))
      omega
    · cases hfind : svFind (block.drop start) 10 with
      | none =>
        rw [parseGo_step_none fuel b block st acc start hle hpwb hstart hne
          hfind]
        have hbounds := expandTabsInLine_bounds (block.drop start).length
          (block.drop start) (start : Int) (start : Int) singleByteParams
          findNextSingleByteDelimeter st.additional_spaces
        have hdl2 : ((block.drop start).length : Int) ≤ (block.length : Int) := by
          rw [List.length_drop]
          omega
        rw [lfStartsSuffix_of_svFind_none hfind]
        refine ⟨by simp, by simp, rfl, rfl, ?_, ?_, ?_⟩
        · simp only
          refine max_le (le_max_left _ _) (le_trans ?_ (le_max_right _ _))
          omega
        · simp only
          omega
        · simp only
          omega
      | some k =>
        have hk0 : k < (block.drop start).length := svFind_some_lt hfind
        have hk : k < block.length - start := by
          rw [List.length_drop] at hk0
          omega
        have hbounds := expandTabsInLine_bounds
          ((block.drop start).take k).length ((block.drop start).take k)
          (start : Int) (start : Int) singleByteParams
          findNextSingleByteDelimeter st.additional_spaces
        rw [parseGo_step_some fuel b block st acc start k hle hpwb hne hfind]
        set A := expandTabsInLine ((block.drop start).take k).length
          ((block.drop start).take k) (start : Int) (start : Int)
          singleByteParams findNextSingleByteDelimeter
          st.additional_spaces with hAdef
        have htk2 : (((block.drop start).take k).length : Int) = (k : Int) := by
          rw [List.length_take, List.length_drop]
          omega
        rw [htk2] at hbounds
        have hpwb' : (if
            ({ st with pos := (start : Int) + (k : Int) + b + 1, end_ := (start : Int) + (k : Int) + b, additional_spaces := 0, max_length := max st.max_length ((start : Int) + (k : Int) + b - st.pos + A) } : IndexingState).pos ≥ b then
            ({ st with pos := (start : Int) + (k : Int) + b + 1, end_ := (start : Int) + (k : Int) + b, additional_spaces := 0, max_length := max st.max_length ((start : Int) + (k : Int) + b - st.pos + A) } : IndexingState).pos - b
          else 0) = ((start + k + 1 : Nat) : Int) := by
          dsimp only
          rw [if_pos (by push_cast; omega)]
          push_cast
          ring
        obtain ⟨ih1, ih2, ih3, ih4, ih5, ih6, ih7⟩ :=
          ih (start + k + 1) _ (acc ++ [(start : Int) + (k : Int) + b + 1])
            hpwb' (by dsimp only; push_cast; omega)
            (by dsimp only; push_cast; omega)
            (by omega) (by omega) (by dsimp only; omega)
        dsimp only at ih2 ih5 ih7
        have hposdecomp := lfStartsSuffix_of_svFind_some hfind
          (b + (start : Int))
        have hdd : (block.drop start).drop (k + 1) =
            block.drop (start + k + 1) := by
          rw [List.drop_drop, ← Nat.add_assoc]
        rw [hdd] at hposdecomp
        refine ⟨?_, ?_, ?_, ?_, ?_, ?_, ?_⟩
        · rw [ih1, hposdecomp, List.append_cons]
          push_cast
          ring_nf
          simp
        · rw [ih2, hposdecomp, List.getLastD_cons]
          push_cast
          ring_nf
        · rw [ih3]
        · rw [ih4]
        · refine le_trans ih5 (max_le ?_ ?_)
          · refine max_le (le_max_left _ _) (le_trans ?_ (le_max_right _ _))
            omega
          · refine le_trans ?_ (le_max_right _ _)
            omega
        · exact ih6
        · refine le_trans ih7 ?_
          omega

theorem iteTriple_fst {c : Prop} [Decidable c] {α β γ : Type} (s : α)
    (d1 d2 : β) (e1 e2 : γ) :
    (if c then (s, d1, e1) else (s, d2, e2)).1 = s := by
  split_ifs <;> rfl

theorem iteTriple_snd {c : Prop} [Decidable c] {α β γ : Type} (s : α)
    (d1 d2 : β) (e1 e2 : γ) :
    (if c then (s, d1, e1) else (s, d2, e2)).2.1 =
      if c then d1 else d2 := by
  split_ifs <;> rfl

theorem indexNextBlock_single (detected : CodecId) (st : IndexingState)
    (d : IndexingData) (off : Nat) (data : List Nat)
    (hne : data.isEmpty = false)
    (hple : st.pos ≤ (off : Int)) (hpos : 0 ≤ st.pos)
    (hadds : 0 ≤ st.additional_spaces) :
    (indexNextBlockModel singleByteParams detected st d off data).1.pos =
      (lfStartsSuffix data (off : Int)).getLastD st.pos ∧
    (indexNextBlockModel singleByteParams detected st d off
        data).1.file_size = st.file_size ∧
    (indexNextBlockModel singleByteParams detected st d off
        data).1.max_length ≤
      max st.max_length ((off : Int) + (data.length : Int) +
        st.additional_spaces + 14 * (data.length : Int)) ∧
    0 ≤ (indexNextBlockModel singleByteParams detected st d off
        data).1.additional_spaces ∧
    (indexNextBlockModel singleByteParams detected st d off
        data).1.additional_spaces ≤
      st.additional_spaces + 14 * (data.length : Int) ∧
    (indexNextBlockModel singleByteParams detected st d off
        data).2.1.linePosition =
      d.linePosition ++ lfStartsSuffix data (off : Int) ∧
    (indexNextBlockModel singleByteParams detected st d off
        data).2.1.hash.size = d.hash.size + (data.length : Int) ∧
    (indexNextBlockModel singleByteParams detected st d off
        data).2.1.fakeFinalLF = d.fakeFinalLF ∧
    (indexNextBlockModel singleByteParams detected st d off
        data).2.1.maxLength ≤
      max d.maxLength
        ((indexNextBlockModel singleByteParams detected st d off
          data).1.max_length) := by
  have hoff : (0 : Int) ≤ (off : Int) := by positivity
  have hpd : parseDataBlock (off : Int) data singleByteParams
      { st with encodingGuess := some (st.encodingGuess.getD detected) } =
      parseDataBlockGo (data.length + 2) (off : Int) data singleByteParams
        findNextSingleByteDelimeter
        { st with encodingGuess := some (st.encodingGuess.getD detected) }
        [] := rfl
  have hP := parseGo_singleByte data (off : Int) hoff (data.length + 2) 0
    { st with encodingGuess := some (st.encodingGuess.getD detected) } []
    (by dsimp only; split_ifs with h <;> omega)
    (by dsimp only; omega) (by dsimp only; omega) (by omega) (by omega)
    (by dsimp only; omega)
  simp only [List.drop_zero, Nat.cast_zero, add_zero, List.nil_append] at hP
  obtain ⟨hp1, hp2, hp3, hp4, hp5, hp6, hp7⟩ := hP
  simp only [indexNextBlockModel, hne, Bool.false_eq_true, if_false, hpd]
  refine ⟨?_, ?_, ?_, ?_, ?_, ?_, ?_, ?_, ?_⟩
  · rw [iteTriple_fst]; exact hp2
  · rw [iteTriple_fst]; exact hp3
  · rw [iteTriple_fst]; exact hp5
  · rw [iteTriple_fst]; exact hp6
  · rw [iteTriple_fst]; exact hp7
  · rw [iteTriple_snd]
    split_ifs <;>
      (simp only [IndexingData.setProgress, IndexingData.addAll]; rw [hp1])
  · rw [iteTriple_snd]
    split_ifs <;>
      simp only [IndexingData.setProgress, IndexingData.addAll, hne,
        Bool.false_eq_true, if_false]
  · rw [iteTriple_snd]
    split_ifs <;>
      simp only [IndexingData.setProgress, IndexingData.addAll,
        Bool.or_false]
  · rw [iteTriple_fst, iteTriple_snd]
    split_ifs <;>
      (simp only [IndexingData.setProgress, IndexingData.addAll];
       refine max_le (le_max_left _ _) (le_trans ?_ (le_max_right _ _)); omega)

theorem chunksGo_nil (blockSize fuel off : Nat) :
    chunksGo blockSize fuel off [] = [] := by
  cases fuel <;> simp [chunksGo]

theorem getLastD_lower (l : List Int) (q p : Int) (hq : 0 ≤ q) (hp : 0 ≤ p)
    (hmem : ∀ x ∈ l, p < x) : 0 ≤ l.getLastD q := by
  rw [List.getLastD_eq_getLast?]
  cases h : l.getLast? with
  | none => simpa using hq
  | some x =>
    have := hmem x (List.mem_of_getLast?_eq_some h)
    simp only [Option.getD_some]
    omega

theorem indexBlocks_single (blockSize : Nat) (hB : 0 < blockSize)
    (detected : CodecId) :
    ∀ (fuel : Nat) (rest : List Nat) (off : Nat) (st : IndexingState)
      (d : IndexingData) (evs : List IndexAction),
      rest.length ≤ fuel →
      st.pos ≤ (off : Int) → 0 ≤ st.pos →
      0 ≤ st.additional_spaces →
      st.additional_spaces ≤ 14 * (off : Int) →
      st.max_length ≤ 15 * (off : Int) →
      (indexBlocksGo singleByteParams detected
          (chunksGo blockSize fuel off rest) st d evs).2.1.linePosition =
        d.linePosition ++ lfStartsSuffix rest (off : Int) ∧
      (indexBlocksGo singleByteParams detected
          (chunksGo blockSize fuel off rest) st d evs).1.pos =
        (lfStartsSuffix rest (off : Int)).getLastD st.pos ∧
      (indexBlocksGo singleByteParams detected
          (chunksGo blockSize fuel off rest) st d evs).1.file_size =
        st.file_size ∧
      (indexBlocksGo singleByteParams detected
          (chunksGo blockSize fuel off rest) st d evs).2.1.hash.size =
        d.hash.size + (rest.length : Int) ∧
      (indexBlocksGo singleByteParams detected
          (chunksGo blockSize fuel off rest) st d evs).2.1.fakeFinalLF =
        d.fakeFinalLF ∧
      (indexBlocksGo singleByteParams detected
          (chunksGo blockSize fuel off rest) st d evs).2.1.maxLength ≤
        max d.maxLength (15 * ((off : Int) + (rest.length : Int))) := by
  intro fuel
  induction fuel with
  | zero =>
    intro rest off st d evs hlen hple hpos hadds hadds14 hmax
    have : rest = [] := List.eq_nil_of_length_eq_zero (by omega)
    subst this
    exact ⟨by simp [chunksGo, indexBlocksGo, lfStartsSuffix],
      by simp [chunksGo, indexBlocksGo, lfStartsSuffix],
      rfl, by simp [chunksGo, indexBlocksGo], rfl, le_max_left _ _⟩
  | succ fuel ih =>
    intro rest off st d evs hlen hple hpos hadds hadds14 hmax
    by_cases hrest : rest.isEmpty
    · have : rest = [] := List.isEmpty_iff.mp hrest
      subst this
      exact ⟨by simp [chunksGo, indexBlocksGo, lfStartsSuffix],
        by simp [chunksGo, indexBlocksGo, lfStartsSuffix],
        rfl, by simp [chunksGo, indexBlocksGo], rfl, le_max_left _ _⟩
    · have hrest' : rest.isEmpty = false := by
        rcases h : rest.isEmpty with _|_
        · rfl
        · exact absurd h hrest
      have hrlen : 0 < rest.length := by
        rcases rest with _ | ⟨c, rs⟩
        · simp at hrest'
        · simp
      have htakene : (rest.take blockSize).isEmpty = false := by
        have h1 : 0 < (rest.take blockSize).length := by
          rw [List.length_take]
          omega
        rcases hE : (rest.take blockSize).isEmpty with _|_
        · rfl
        · rw [List.isEmpty_iff.mp hE] at h1
          simp at h1
      have hchunks : chunksGo blockSize (fuel + 1) off rest =
          (off, rest.take blockSize) ::
            chunksGo blockSize fuel (off + blockSize) (rest.drop blockSize) := by
        simp only [chunksGo, hrest', Bool.false_eq_true, if_false]
      rw [hchunks]
      simp only [indexBlocksGo]
      obtain ⟨b1, b2, b3, b4, b5, b6, b7, b8, b9⟩ :=
        indexNextBlock_single detected st d off (rest.take blockSize) htakene
          hple hpos hadds
      -- bounds on the state after this block
      have hposbound := (lfStartsSuffix_getLastD (rest.take blockSize)
        (off : Int) st.pos hple).1
      have hpos0 : 0 ≤ (lfStartsSuffix (rest.take blockSize)
          (off : Int)).getLastD st.pos := by
        refine getLastD_lower _ st.pos (off : Int) hpos (by positivity) ?_
        intro x hx
        exact (lfStartsSuffix_mem_bounds _ _ x hx).1
      rcases le_or_lt blockSize rest.length with hBle | hBgt
      · -- a full block was taken; recurse on the remainder
        have htkB : (rest.take blockSize).length = blockSize := by
          rw [List.length_take]
          exact min_eq_left hBle
        rw [htkB] at b3 b5 b7 hposbound
        obtain ⟨i1, i2, i3, i4, i5, i6⟩ :=
          ih (rest.drop blockSize) (off + blockSize)
            (indexNextBlockModel singleByteParams detected st d off
              (rest.take blockSize)).1
            (indexNextBlockModel singleByteParams detected st d off
              (rest.take blockSize)).2.1
            (evs ++ (indexNextBlockModel singleByteParams detected st d off
              (rest.take blockSize)).2.2)
            (by rw [List.length_drop]; omega)
            (by rw [b1]; push_cast; omega)
            (by rw [b1]; exact hpos0)
            b4
            (by refine le_trans b5 ?_; push_cast; omega)
            (by
              refine le_trans b3 ?_
              refine max_le (le_trans hmax ?_) ?_ <;> push_cast <;> omega)
        have hcomb : lfStartsSuffix rest (off : Int) =
            lfStartsSuffix (rest.take blockSize) (off : Int) ++
              lfStartsSuffix (rest.drop blockSize)
                (((off + blockSize : Nat)) : Int) := by
          conv_lhs => rw [← List.take_append_drop blockSize rest]
          rw [lfStartsSuffix_append]
          congr 2
          rw [htkB]
          push_cast
          ring
        refine ⟨?_, ?_, ?_, ?_, ?_, ?_⟩
        · rw [i1, b6, hcomb, List.append_assoc]
        · rw [i2, b1, hcomb, getLastD_append]
        · rw [i3, b2]
        · rw [i4, b7, List.length_drop]
          push_cast
          omega
        · rw [i5, b8]
        · refine le_trans i6 (max_le ?_ ?_)
          · refine le_trans b9 (max_le (le_max_left _ _) ?_)
            refine le_trans b3 ?_
            refine le_trans (max_le (le_trans hmax ?_) ?_)
              (le_max_right _ _) <;> push_cast <;> omega
          · refine le_trans ?_ (le_max_right _ _)
            rw [List.length_drop]
            push_cast
            omega
      · -- the final, short block: the remainder is empty
        have hdrop : rest.drop blockSize = [] :=
          List.drop_eq_nil_of_le (le_of_lt hBgt)
        have htake : rest.take blockSize = rest :=
          List.take_of_length_le (le_of_lt hBgt)
        rw [hdrop, chunksGo_nil]
        simp only [indexBlocksGo]
        rw [htake] at b1 b2 b3 b6 b7 b8 b9
        rw [htake]
        refine ⟨b6, b1, b2, b7, b8, ?_⟩
        refine le_trans b9 (max_le (le_max_left _ _) ?_)
        refine le_trans b3 ?_
        refine le_trans (max_le (le_trans hmax ?_) ?_) (le_max_right _ _) <;>
          push_cast <;> omega

@[simp] theorem setHeaderHash_linePosition (d : IndexingData) (dig : List Nat)
    (s : Int) : (d.setHeaderHash dig s).linePosition = d.linePosition := rfl

@[simp] theorem setHeaderHash_fakeFinalLF (d : IndexingData) (dig : List Nat)
    (s : Int) : (d.setHeaderHash dig s).fakeFinalLF = d.fakeFinalLF := rfl

@[simp] theorem setHeaderHash_hash_size (d : IndexingData) (dig : List Nat)
    (s : Int) : (d.setHeaderHash dig s).hash.size = d.hash.size := rfl

@[simp] theorem setHeaderHash_maxLength (d : IndexingData) (dig : List Nat)
    (s : Int) : (d.setHeaderHash dig s).maxLength = d.maxLength := rfl

@[simp] theorem setHeaderHash_encodingGuess (d : IndexingData)
    (dig : List Nat) (s : Int) :
    (d.setHeaderHash dig s).encodingGuess = d.encodingGuess := rfl

@[simp] theorem setTailHash_linePosition (d : IndexingData) (dig : List Nat)
    (o s : Int) : (d.setTailHash dig o s).linePosition = d.linePosition := rfl

@[simp] theorem setTailHash_fakeFinalLF (d : IndexingData) (dig : List Nat)
    (o s : Int) : (d.setTailHash dig o s).fakeFinalLF = d.fakeFinalLF := rfl

@[simp] theorem setTailHash_hash_size (d : IndexingData) (dig : List Nat)
    (o s : Int) : (d.setTailHash dig o s).hash.size = d.hash.size := rfl

@[simp] theorem setTailHash_maxLength (d : IndexingData) (dig : List Nat)
    (o s : Int) : (d.setTailHash dig o s).maxLength = d.maxLength := rfl

@[simp] theorem setTailHash_encodingGuess (d : IndexingData) (dig : List Nat)
    (o s : Int) : (d.setTailHash dig o s).encodingGuess = d.encodingGuess :=
  rfl

@[simp] theorem setEncodingGuess_linePosition (d : IndexingData)
    (c : Option CodecId) :
    (d.setEncodingGuess c).linePosition = d.linePosition := rfl

@[simp] theorem setEncodingGuess_fakeFinalLF (d : IndexingData)
    (c : Option CodecId) :
    (d.setEncodingGuess c).fakeFinalLF = d.fakeFinalLF := rfl

@[simp] theorem setEncodingGuess_hash_size (d : IndexingData)
    (c : Option CodecId) :
    (d.setEncodingGuess c).hash.size = d.hash.size := rfl

@[simp] theorem setEncodingGuess_maxLength (d : IndexingData)
    (c : Option CodecId) :
    (d.setEncodingGuess c).maxLength = d.maxLength := rfl

@[simp] theorem addAll_empty_linePosition (d : IndexingData) (len : Int)
    (lp : FastLinePositionArray) (enc : Option CodecId) :
    (d.addAll [] len lp enc).linePosition =
      d.linePosition ++ lp.positions := rfl

@[simp] theorem addAll_empty_fakeFinalLF (d : IndexingData) (len : Int)
    (lp : FastLinePositionArray) (enc : Option CodecId) :
    (d.addAll [] len lp enc).fakeFinalLF =
      (d.fakeFinalLF || lp.fakeFinalLF) := rfl

@[simp] theorem addAll_empty_hash (d : IndexingData) (len : Int)
    (lp : FastLinePositionArray) (enc : Option CodecId) :
    (d.addAll [] len lp enc).hash = d.hash := rfl

@[simp] theorem addAll_empty_maxLength (d : IndexingData) (len : Int)
    (lp : FastLinePositionArray) (enc : Option CodecId) :
    (d.addAll [] len lp enc).maxLength = max d.maxLength len := rfl

/-! ### Master characterization of a full single-byte index run -/

/-- On a readable single-byte file that fits under the line-length cap, a full
(uninterrupted) index run produces exactly the LF-successor offsets, appends
the fake final LF offset `len + 1` iff the file does not end in LF, and records
the file length as the indexed size. -/
theorem fullIndexRun_singleByte (f : List Nat) (fastConfig : Bool)
    (detected : CodecId) (forced : Option CodecId) (d : IndexingData)
    (blockSize : Nat) (hB : 0 < blockSize)
    (hcap : 15 * (f.length : Int) < LineLengthMax) :
    (fullIndexRun singleByteParams fastConfig detected blockSize false forced
        ⟨true, f⟩ d).1.linePosition =
      lfStartsSuffix f 0 ++
        (if (lfStartsSuffix f 0).getLastD 0 = (f.length : Int) then []
         else [(f.length : Int) + 1]) ∧
    ((fullIndexRun singleByteParams fastConfig detected blockSize false forced
        ⟨true, f⟩ d).1.fakeFinalLF = true ↔
      (lfStartsSuffix f 0).getLastD 0 ≠ (f.length : Int)) ∧
    (fullIndexRun singleByteParams fastConfig detected blockSize false forced
        ⟨true, f⟩ d).1.hash.size = (f.length : Int) := by
  obtain ⟨i1, i2, i3, i4, i5, i6⟩ :=
    indexBlocks_single blockSize hB detected f.length f 0
      { pos := 0, file_size := (f.length : Int), encodingGuess := none }
      { encodingForced := forced, useFastModificationDetection := fastConfig }
      [] (le_refl _) (by simp) (by simp) (by simp) (by simp) (by simp)
  have hgl := (lfStartsSuffix_getLastD f 0 0 le_rfl).1
  simp only [List.length_nil, Nat.cast_zero, add_zero, List.nil_append,
    zero_add] at i1 i2 i3 i4 i5 i6 hgl
  have i6' := le_trans i6 (max_le (by positivity) (le_refl _))
  simp only [List.getLastD_eq_getLast?] at i2 hgl ⊢
  simp only [fullIndexRun, doIndexModel, IndexingData.clear,
    IndexingData.forceEncoding, Int.toNat_zero, List.drop_zero, chunks,
    Bool.false_eq_true, if_false, not_true, true_and, zero_add,
    not_false_iff, if_true]
  rw [i2, i3]
  set D2 := (indexBlocksGo singleByteParams detected
      (chunksGo blockSize f.length 0 f)
      { pos := 0, file_size := (f.length : Int), encodingGuess := none }
      { encodingForced := forced, useFastModificationDetection := fastConfig }
      []).2.1 with hD2
  have hm0 : max D2.maxLength 0 ≤ 15 * (f.length : Int) :=
    max_le i6' (by positivity)
  by_cases hfake : (lfStartsSuffix f 0).getLast?.getD 0 = (f.length : Int)
  · rw [hfake, if_neg (gt_irrefl _), if_pos rfl]
    split_ifs <;>
      first
        | (refine ⟨?_, ?_, ?_⟩ <;> (simp [i1, i4, i5]; done))
        | (exfalso
           simp_all only [setHeaderHash_maxLength, setTailHash_maxLength,
             addAll_empty_maxLength]
           try omega)
  · have hpos : (f.length : Int) > (lfStartsSuffix f 0).getLast?.getD 0 := by
      omega
    rw [if_pos hpos, if_neg hfake]
    split_ifs <;>
      first
        | (refine ⟨?_, ?_, ?_⟩ <;> (simp [i1, i4, i5, hfake]; done))
        | (exfalso
           simp_all only [setHeaderHash_maxLength, setTailHash_maxLength,
             addAll_empty_maxLength]
           try omega)

/-! ### Claim theorems: error handling and the fingerprint invariant -/

/-- C6 counterexample: with fast modification detection enabled, `addAll`
still increments the fingerprint size for a nonempty block but feeds no
bytes to the hash builder, so the size does not equal the bytes fed. -/
theorem C6_fast_mode_counterexample :
    ((IndexingData.clear true ({} : IndexingData)).addAll [65] 1 {} none).hash.size = 1 ∧
    ((IndexingData.clear true ({} : IndexingData)).addAll [65] 1 {} none).hashBuilder = [] := by
  decide

/-- C6 (amended): when fast modification detection is disabled, `addAll`
preserves the invariant that the fingerprint size equals the number of bytes
fed to the full-file hash builder, and `clear` (re-)establishes it. -/
theorem C6_size_tracks_hashBuilder (d : IndexingData) (block : List Nat)
    (len : Int) (lp : FastLinePositionArray) (enc : Option CodecId)
    (hfast : d.useFastModificationDetection = false)
    (hinv : d.hash.size = (d.hashBuilder.length : Int)) :
    (d.addAll block len lp enc).hash.size =
      ((d.addAll block len lp enc).hashBuilder.length : Int) ∧
    (IndexingData.clear false d).hash.size =
      ((IndexingData.clear false d).hashBuilder.length : Int) := by
  constructor
  · unfold IndexingData.addAll
    by_cases hb : block.isEmpty
    · simp [hb, hinv]
    · simp [hb, hfast, hinv]
  · rfl

/-- C6 witness: the invariant propagation applied to the freshly cleared
store and a one-byte block. -/
theorem C6_size_tracks_hashBuilder_witness :
    (({} : IndexingData).addAll [65] 1 {} none).hash.size =
      ((({} : IndexingData).addAll [65] 1 {} none).hashBuilder.length : Int) :=
  (C6_size_tracks_hashBuilder {} [65] 1 {} none (by decide) (by decide)).1

/-- C7 counterexample: an interrupted full index run on a readable one-byte
file still performs the header rehash, contradicting the claim that the
finalization step skips the header/tail rehash. -/
theorem C7_interrupt_still_rehashes :
    IndexAction.computedHeaderHash ∈
      (fullIndexRun singleByteParams false CodecId.localeDefault 4 true none
        ⟨true, [65]⟩ {}).2.1 := by decide

/-- C7 (amended): with the interrupt flag set from the start of a full index
run on a readable file, no blocks are parsed and no fake final LF is
appended, but the header/tail rehash still happens; the store is then
cleared (ending with the locale-default guess) and the run reports
`Interrupted`. -/
theorem C7_interrupted_run (params : EncodingParameters) (fastConfig : Bool)
    (detected : CodecId) (blockSize : Nat) (forced : Option CodecId)
    (f : List Nat) (d : IndexingData) :
    (fullIndexRun params fastConfig detected blockSize true forced
        ⟨true, f⟩ d).2.1 =
      [IndexAction.emittedProgress 0, IndexAction.computedHeaderHash,
       IndexAction.computedTailHash, IndexAction.clearedStore] ∧
    (fullIndexRun params fastConfig detected blockSize true forced
        ⟨true, f⟩ d).1.linePosition = [] ∧
    (fullIndexRun params fastConfig detected blockSize true forced
        ⟨true, f⟩ d).1.hash.size = 0 ∧
    (fullIndexRun params fastConfig detected blockSize true forced
        ⟨true, f⟩ d).1.fakeFinalLF = false ∧
    (fullIndexRun params fastConfig detected blockSize true forced
        ⟨true, f⟩ d).1.encodingGuess = some CodecId.localeDefault ∧
    loadingStatusOf (fullIndexRun params fastConfig detected blockSize true
        forced ⟨true, f⟩ d).2.2 = LoadingStatus.Interrupted := by
  have hle : (0 : Int) ≤ (blockSize : Nat) := Int.ofNat_nonneg blockSize
  simp only [fullIndexRun, doIndexModel, IndexingData.clear,
    IndexingData.forceEncoding, IndexingData.setEncodingGuess,
    IndexingData.setHeaderHash, IndexingData.setTailHash, indexBlocksGo,
    loadingStatusOf, if_true, if_pos hle]
  norm_num [LineLengthMax]

/-- C8: when the file cannot be opened, the operation yields an empty index
with the locale-default encoding guess and 100% progress, the only events
are the 0% and 100% progress signals, and the run reports `Successful`. -/
theorem C8_open_failure (params : EncodingParameters) (fastConfig : Bool)
    (detected : CodecId) (blockSize : Nat) (forced : Option CodecId)
    (content : List Nat) (d : IndexingData) :
    (fullIndexRun params fastConfig detected blockSize false forced
        ⟨false, content⟩ d).1.linePosition = [] ∧
    (fullIndexRun params fastConfig detected blockSize false forced
        ⟨false, content⟩ d).1.hash.size = 0 ∧
    (fullIndexRun params fastConfig detected blockSize false forced
        ⟨false, content⟩ d).1.encodingGuess = some CodecId.localeDefault ∧
    (fullIndexRun params fastConfig detected blockSize false forced
        ⟨false, content⟩ d).1.progress = 100 ∧
    (fullIndexRun params fastConfig detected blockSize false forced
        ⟨false, content⟩ d).2.1 =
      [IndexAction.emittedProgress 0, IndexAction.emittedProgress 100] ∧
    loadingStatusOf (fullIndexRun params fastConfig detected blockSize false
        forced ⟨false, content⟩ d).2.2 = LoadingStatus.Successful :=
  ⟨rfl, rfl, rfl, rfl, rfl, rfl⟩

/-- C9 counterexample: the change-check operation's catch handler leaves the
store untouched instead of clearing it, contradicting the claim that every
operation clears the store on an exception. -/
theorem C9_check_op_keeps_store :
    (runCheckOpModel (Except.error "err") { linePosition := [2] }).1.linePosition = [2] ∧
    (runCheckOpModel (Except.error "err") { linePosition := [2] }).1.linePosition ≠
      (IndexingData.clear false { linePosition := [2] }).linePosition :=
  ⟨rfl, by decide⟩

/-- C9 (amended): exceptions never escape an operation: an index operation's
handler clears the store and reports failure, while the change-check
operation's handler reports `Truncated` and leaves the store unchanged. -/
theorem C9_exception_boundary (e : String) (fastConfig : Bool)
    (d : IndexingData) :
    runIndexOpModel (Except.error e) fastConfig d =
      (IndexingData.clear fastConfig d, false) ∧
    runCheckOpModel (Except.error e) d = (d, MonitoredFileStatus.Truncated) :=
  ⟨rfl, rfl⟩

/-- C4: the change check returns `Truncated` exactly when the file is empty,
shorter than the fingerprint, unopenable, or its recomputed digest (header
then tail in fast mode, full prefix digest otherwise) differs from the
stored one; otherwise `DataAdded` when the file grew and `Unchanged` when
the sizes match. -/
theorem C4_change_check_classification (fastConfig : Bool) (file : FileModel)
    (h : IndexedHash) :
    doCheckFileChanges fastConfig file h =
      (if (file.content.length : Int) = 0 ∨ (file.content.length : Int) < h.size ∨
          ¬file.canOpen ∨
          (if fastConfig then
             digest (file.content.take h.headerSize.toNat) ≠ h.headerDigest ∨
               digest ((file.content.drop h.tailOffset.toNat).take
                 h.tailSize.toNat) ≠ h.tailDigest
           else digest (file.content.take h.size.toNat) ≠ h.fullDigest)
       then MonitoredFileStatus.Truncated
       else if (file.content.length : Int) > h.size then
         MonitoredFileStatus.DataAdded
       else MonitoredFileStatus.Unchanged) := by
  unfold doCheckFileChanges
  simp only [List.drop_zero]
  split_ifs <;>
    first
      | rfl
      | (simp only [ne_eq, decide_eq_true_eq, Bool.not_eq_true,
           decide_eq_false_iff_not, not_not] at *; tauto)
      | (simp_all; try omega)

/-! ### Claim theorems: line counting and offsets -/

/-- C1: under a single-byte-LF encoding, a full index produces one line per
LF byte, plus one exactly when the file is nonempty and does not end in LF,
in which case the synthetic offset `file_size + 1` is appended and the
fake-final-LF flag is set. -/
theorem C1_single_byte_line_count (f : List Nat) (fastConfig : Bool)
    (detected : CodecId) (forced : Option CodecId) (d : IndexingData)
    (blockSize : Nat) (hB : 0 < blockSize)
    (hcap : 15 * (f.length : Int) < LineLengthMax) :
    (fullIndexRun singleByteParams fastConfig detected blockSize false forced
        ⟨true, f⟩ d).1.linePosition.length =
      f.count 10 + (if f ≠ [] ∧ f.getLast? ≠ some 10 then 1 else 0) ∧
    ((fullIndexRun singleByteParams fastConfig detected blockSize false forced
        ⟨true, f⟩ d).1.fakeFinalLF = true ↔
      f ≠ [] ∧ f.getLast? ≠ some 10) ∧
    (f ≠ [] ∧ f.getLast? ≠ some 10 →
      (fullIndexRun singleByteParams fastConfig detected blockSize false forced
        ⟨true, f⟩ d).1.linePosition.getLast? = some ((f.length : Int) + 1)) := by
  obtain ⟨h1, h2, h3⟩ :=
    fullIndexRun_singleByte f fastConfig detected forced d blockSize hB hcap
  have hgl := lfStartsSuffix_getLastD f 0 0 le_rfl
  simp only [zero_add] at hgl
  have hcnt := lfStartsSuffix_length f 0
  have hcond : ((lfStartsSuffix f 0).getLastD 0 = (f.length : Int)) ↔
      (f.getLast? = some 10 ∨ f = []) := by
    rw [hgl.2]
    constructor
    · rintro (h | ⟨h, -⟩)
      · exact Or.inl h
      · exact Or.inr h
    · rintro (h | h)
      · exact Or.inl h
      · exact Or.inr ⟨h, trivial⟩
  refine ⟨?_, ?_, ?_⟩
  · rw [h1]
    by_cases hc : f.getLast? = some 10 ∨ f = []
    · rw [if_pos (hcond.mpr hc),
        if_neg (fun hx2 => hc.elim (fun h => hx2.2 h) (fun h => hx2.1 h)),
        List.append_nil, hcnt]
      omega
    · rw [if_neg (fun h => hc (hcond.mp h)),
        if_pos ⟨fun h => hc (Or.inr h), fun h => hc (Or.inl h)⟩]
      simp [hcnt]
  · rw [h2]
    constructor
    · intro hne
      have hnc : ¬(f.getLast? = some 10 ∨ f = []) := fun h => hne (hcond.mpr h)
      exact ⟨fun h => hnc (Or.inr h), fun h => hnc (Or.inl h)⟩
    · intro hx h
      rcases hcond.mp h with h' | h'
      · exact hx.2 h'
      · exact hx.1 h'
  · intro hx
    have hne : (lfStartsSuffix f 0).getLastD 0 ≠ (f.length : Int) := by
      intro h
      rcases hcond.mp h with h' | h'
      · exact hx.2 h'
      · exact hx.1 h'
    rw [h1, if_neg hne]
    simp

/-- C1 witness: the "hello" file (no LF at all) gets exactly one line. -/
theorem C1_witness :
    0 < 4 ∧
    15 * (([104, 101, 108, 108, 111] : List Nat).length : Int) < LineLengthMax ∧
    (fullIndexRun singleByteParams false CodecId.localeDefault 4 false none
        ⟨true, [104, 101, 108, 108, 111]⟩ {}).1.linePosition.length =
      ([104, 101, 108, 108, 111] : List Nat).count 10 +
        (if ([104, 101, 108, 108, 111] : List Nat) ≠ [] ∧
            ([104, 101, 108, 108, 111] : List Nat).getLast? ≠ some 10
         then 1 else 0) :=
  ⟨by decide, by decide,
   (C1_single_byte_line_count [104, 101, 108, 108, 111] false
      CodecId.localeDefault none {} 4 (by decide) (by decide)).1⟩

/-- C10: `addAll` with an empty block leaves the fingerprint and the hash
builder unchanged; hence after fully indexing a non-LF-terminated file the
indexed size equals the file's byte size even though the last stored offset
is `file_size + 1`, and a partial index would start at the true byte size. -/
theorem C10_addAll_empty_frame (d : IndexingData) (len : Int)
    (lp : FastLinePositionArray) (enc : Option CodecId) (f : List Nat)
    (fastConfig : Bool) (detected : CodecId) (forced : Option CodecId)
    (d0 : IndexingData) (blockSize : Nat) (hB : 0 < blockSize)
    (hcap : 15 * (f.length : Int) < LineLengthMax)
    (hne : f ≠ []) (hlast : f.getLast? ≠ some 10) :
    (d.addAll [] len lp enc).hash = d.hash ∧
    (d.addAll [] len lp enc).hashBuilder = d.hashBuilder ∧
    (fullIndexRun singleByteParams fastConfig detected blockSize false forced
        ⟨true, f⟩ d0).1.getIndexedSize = (f.length : Int) ∧
    (fullIndexRun singleByteParams fastConfig detected blockSize false forced
        ⟨true, f⟩ d0).1.linePosition.getLast? = some ((f.length : Int) + 1) ∧
    partialIndexStart
      (fullIndexRun singleByteParams fastConfig detected blockSize false forced
        ⟨true, f⟩ d0).1 = (f.length : Int) := by
  obtain ⟨h1, h2, h3⟩ :=
    fullIndexRun_singleByte f fastConfig detected forced d0 blockSize hB hcap
  have hgl := lfStartsSuffix_getLastD f 0 0 le_rfl
  simp only [zero_add] at hgl
  have hne' : (lfStartsSuffix f 0).getLastD 0 ≠ (f.length : Int) := by
    intro h
    rcases hgl.2.mp h with h' | ⟨h', -⟩
    · exact hlast h'
    · exact hne h'
  refine ⟨rfl, rfl, h3, ?_, h3⟩
  rw [h1, if_neg hne']
  simp

/-- C10 witness: indexing "hello" reports indexed size 5. -/
theorem C10_witness :
    ([104, 101, 108, 108, 111] : List Nat) ≠ [] ∧
    (fullIndexRun singleByteParams false CodecId.localeDefault 4 false none
        ⟨true, [104, 101, 108, 108, 111]⟩ {}).1.getIndexedSize =
      (([104, 101, 108, 108, 111] : List Nat).length : Int) :=
  ⟨by decide,
   (C10_addAll_empty_frame {} 0 {} none [104, 101, 108, 108, 111] false
      CodecId.localeDefault none {} 4 (by decide) (by decide) (by decide)
      (by decide)).2.2.1⟩

/-- C5: when the scanner finds a tab inside the line view, the expander adds
`TabStop − ((tabPos − lineStart + additionalSpaces) mod TabStop) − 1` to the
additional-spaces count and continues after the tab; indexing the ASCII
input `"a\tb\n"` with `TabStop = 8` yields one line of maximum length 9. -/
theorem C5_tab_expansion (params : EncodingParameters) (find : FindDelimeter)
    (fuel : Nat) (view : List Nat) (vo ps adds : Int) (t : Nat)
    (hne : view ≠ []) (hfind : find params view 9 = some t)
    (ht : t < view.length) :
    expandTabsInLine (fuel + 1) view vo ps params find adds =
      expandTabsInLine fuel (view.drop (t + 1)) (vo + (t : Int) + 1) ps params
        find (adds + (TabStop -
          ((vo + (t : Int) - (params.getBeforeCrOffset : Int) - ps) +
            adds).tmod TabStop - 1)) ∧
    (fullIndexRun singleByteParams false CodecId.localeDefault 4 false none
        ⟨true, [97, 9, 98, 10]⟩ {}).1.maxLength = 9 ∧
    (fullIndexRun singleByteParams false CodecId.localeDefault 4 false none
        ⟨true, [97, 9, 98, 10]⟩ {}).1.linePosition = [4] := by
  refine ⟨?_, by decide, by decide⟩
  have hemp : view.isEmpty = false := by
    simp [List.isEmpty_iff, hne]
  rw [expandTabsInLine]
  simp only [hemp, Bool.false_eq_true, if_false, hfind]
  rw [if_neg (not_le.mpr ht)]

/-- C5 witness: a view holding a single trailing tab after one byte. -/
theorem C5_tab_expansion_witness :
    ([97, 9] : List Nat) ≠ [] ∧
    findNextSingleByteDelimeter singleByteParams [97, 9] 9 = some 1 ∧
    expandTabsInLine 2 [97, 9] 0 0 singleByteParams
        findNextSingleByteDelimeter 0 =
      expandTabsInLine 1 (([97, 9] : List Nat).drop 2) (0 + (1 : Int) + 1) 0
        singleByteParams findNextSingleByteDelimeter
        (0 + (TabStop -
          ((0 + (1 : Int) - (singleByteParams.getBeforeCrOffset : Int) - 0) +
            0).tmod TabStop - 1)) :=
  ⟨by decide, by decide,
   (C5_tab_expansion singleByteParams findNextSingleByteDelimeter 1 [97, 9]
      0 0 0 1 (by decide) (by decide) (by decide)).1⟩

/-! ### The multi-byte delimiter scanner -/

theorem getD_drop (l : List Nat) : ∀ (s m x : Nat),
    (l.drop s).getD m x = l.getD (s + m) x := by
  induction l with
  | nil => intro s m x; simp
  | cons c rest ih =>
    intro s m x
    cases s with
    | zero => simp
    | succ s =>
      rw [List.drop_succ_cons, ih s m x]
      have h : s + 1 + m = (s + m) + 1 := by omega
      rw [h, List.getD_cons_succ]

theorem getD_default_eq (l : List Nat) (n a b : Nat) (h : n < l.length) :
    l.getD n a = l.getD n b := by
  rw [List.getD_eq_getElem l a h, List.getD_eq_getElem l b h]

theorem svFind_eq_some (v : List Nat) (dv : Nat) :
    ∀ k, svFind v dv = some k →
      k < v.length ∧ v.getD k (dv + 1) = dv ∧
        ∀ j < k, v.getD j (dv + 1) ≠ dv := by
  induction v with
  | nil => intro k hk; simp [svFind] at hk
  | cons c rest ih =>
    intro k hk
    rw [svFind] at hk
    by_cases hc : c = dv
    · rw [if_pos hc] at hk
      cases hk
      refine ⟨by simp, by simpa using hc, ?_⟩
      intro j hj
      omega
    · rw [if_neg hc] at hk
      cases hrest : svFind rest dv with
      | none => rw [hrest] at hk; simp at hk
      | some m =>
        rw [hrest] at hk
        simp only [Option.map_some'] at hk
        cases hk
        obtain ⟨h1, h2, h3⟩ := ih m hrest
        refine ⟨by simp; omega, by simpa using h2, ?_⟩
        intro j hj
        cases j with
        | zero => simpa using hc
        | succ j2 =>
          have := h3 j2 (by omega)
          simpa using this

theorem svFindFrom_eq_some (data : List Nat) (dv s k : Nat)
    (h : svFindFrom data dv s = some k) :
    s ≤ k ∧ k < data.length ∧ data.getD k (dv + 1) = dv ∧
      ∀ j, s ≤ j → j < k → data.getD j (dv + 1) ≠ dv := by
  unfold svFindFrom at h
  cases hf : svFind (data.drop s) dv with
  | none => rw [hf] at h; simp at h
  | some m =>
    rw [hf] at h
    simp only [Option.map_some'] at h
    cases h
    obtain ⟨h1, h2, h3⟩ := svFind_eq_some _ dv m hf
    rw [List.length_drop] at h1
    rw [getD_drop] at h2
    have hms : s + m = m + s := by omega
    rw [hms] at h2
    refine ⟨by omega, by omega, h2, ?_⟩
    intro j hsj hjk
    have h4 := h3 (j - s) (by omega)
    rw [getD_drop] at h4
    have hj : s + (j - s) = j := by omega
    rw [hj] at h4
    exact h4

theorem isNotDelimeter_eq_false_iff (params : EncodingParameters)
    (data : List Nat) (k : Nat) (hk : k < data.length)
    (hw : 1 ≤ params.lineFeedWidth) :
    isNotDelimeter params data k = false ↔
      genuineDelimiterSpec params data k := by
  unfold isNotDelimeter genuineDelimiterSpec
  by_cases hfwd : params.lineFeedIndex = 0
  · simp only [hfwd, if_true, eq_self_iff_true, true_and, not_true,
      false_and, if_false]
    by_cases hrange : k + params.lineFeedWidth > data.length
    · rw [if_pos hrange]
      simp only [Bool.true_eq_false, false_iff]
      intro hg
      rcases Nat.lt_or_ge params.lineFeedWidth 2 with hw2 | hw2
      · omega
      · have := (hg (params.lineFeedWidth - 1) (by omega) (by omega)).1
        omega
    · rw [if_neg hrange]
      rw [List.any_eq_false]
      constructor
      · intro hall i h1 h2
        have hm : i ∈ List.range' 1 (params.lineFeedWidth - 1) :=
          List.mem_range'_1.mpr ⟨h1, by omega⟩
        have := hall i hm
        simp only [Bool.not_eq_true, decide_eq_false_iff_not, not_not] at this
        refine ⟨by omega, ?_⟩
        rw [getD_default_eq data (k + i) 1 0 (by omega)]
        exact this
      · intro hg i hm
        obtain ⟨h1, h2⟩ := List.mem_range'_1.mp hm
        have := (hg i h1 (by omega)).2
        simp only [Bool.not_eq_true, decide_eq_false_iff_not, not_not]
        rw [getD_default_eq data (k + i) 0 1 (by omega)]
        exact this
  · simp only [hfwd, if_false, eq_self_iff_true, false_and, if_false,
      not_false_iff, true_and]
    by_cases hlow : k < params.lineFeedWidth - 1
    · rw [if_pos hlow]
      simp only [Bool.true_eq_false, false_iff]
      intro hg
      have := (hg (params.lineFeedWidth - 1) (by omega) (by omega)).1
      omega
    · rw [if_neg hlow]
      rw [List.any_eq_false]
      constructor
      · intro hall i h1 h2
        have hm : i ∈ List.range' 1 (params.lineFeedWidth - 1) :=
          List.mem_range'_1.mpr ⟨h1, by omega⟩
        have := hall i hm
        simp only [Bool.not_eq_true, decide_eq_false_iff_not, not_not] at this
        refine ⟨by omega, ?_⟩
        rw [getD_default_eq data (k - i) 1 0 (by omega)]
        exact this
      · intro hg i hm
        obtain ⟨h1, h2⟩ := List.mem_range'_1.mp hm
        have := (hg i h1 (by omega)).2
        simp only [Bool.not_eq_true, decide_eq_false_iff_not, not_not]
        rw [getD_default_eq data (k - i) 0 1 (by omega)]
        exact this

theorem mbFindGo_sound (params : EncodingParameters) (data : List Nat) :
    ∀ (fuel : Nat) (opt : Option Nat),
      (∀ k, opt = some k → k < data.length ∧ data.getD k 11 = 10 ∧
        ∀ j < k, data.getD j 11 = 10 →
          isNotDelimeter params data j = true) →
      (∀ k, opt = some k → data.length < k + fuel) →
      ∀ r, mbFindGo params data 10 fuel opt = some r →
        r < data.length ∧ data.getD r 11 = 10 ∧
        isNotDelimeter params data r = false ∧
        ∀ j < r, data.getD j 11 = 10 →
          isNotDelimeter params data j = true := by
  intro fuel
  induction fuel with
  | zero =>
    intro opt hInv hfuel r hr
    cases opt with
    | none => simp [mbFindGo] at hr
    | some k =>
      have h1 := (hInv k rfl).1
      have h2 := hfuel k rfl
      omega
  | succ fuel ih =>
    intro opt hInv hfuel r hr
    cases opt with
    | none => simp [mbFindGo] at hr
    | some k =>
      rw [mbFindGo] at hr
      by_cases hd : isNotDelimeter params data k = true
      · rw [if_pos hd] at hr
        refine ih (svFindFrom data 10 (k + 1)) ?_ ?_ r hr
        · intro k2 hk2
          obtain ⟨hs, hlen, hat, hmin⟩ := svFindFrom_eq_some data 10 (k + 1) k2 hk2
          obtain ⟨hk1, hk1', hk3⟩ := hInv k rfl
          refine ⟨hlen, hat, ?_⟩
          intro j hj hj10
          by_cases hjk : j < k
          · exact hk3 j hjk hj10
          · by_cases hjeq : j = k
            · rw [hjeq]; exact hd
            · exact absurd hj10 (hmin j (by omega) hj)
        · intro k2 hk2
          obtain ⟨hs, -, -, -⟩ := svFindFrom_eq_some data 10 (k + 1) k2 hk2
          have := hfuel k rfl
          omega
      · rw [if_neg hd] at hr
        cases hr
        obtain ⟨hk1, hk2, hk3⟩ := hInv r rfl
        exact ⟨hk1, hk2, by simpa using hd, hk3⟩

/-- C3: a candidate returned by the multi-byte scanner is an LF byte whose
`lineFeedWidth - 1` neighbours (forward for `lineFeedIndex = 0`, backward
otherwise) all lie within the slice and are zero, and every earlier LF byte
was rejected for failing that test; on the UTF-16LE example bytes the run
produces exactly the two offsets `[6, 10]`. -/
theorem C3_multibyte_delimiter (params : EncodingParameters)
    (data : List Nat) (k : Nat) (hw : 1 ≤ params.lineFeedWidth)
    (hk : findNextMultiByteDelimeter params data 10 = some k) :
    (k < data.length ∧ data.getD k 11 = 10 ∧
     genuineDelimiterSpec params data k ∧
     ∀ j < k, data.getD j 11 = 10 → ¬genuineDelimiterSpec params data j) ∧
    (fullIndexRun utf16leParams false (CodecId.other 1) 16 false none
        ⟨true, [65, 0, 10, 1, 10, 0, 66, 0, 10, 0]⟩ {}).1.linePosition =
      [6, 10] ∧
    (fullIndexRun utf16leParams false (CodecId.other 1) 16 false none
        ⟨true, [65, 0, 10, 1, 10, 0, 66, 0, 10, 0]⟩
        {}).1.linePosition.length = 2 := by
  refine ⟨?_, by decide, by decide⟩
  unfold findNextMultiByteDelimeter at hk
  have hInv : ∀ k2, svFind data 10 = some k2 →
      k2 < data.length ∧ data.getD k2 11 = 10 ∧
      ∀ j < k2, data.getD j 11 = 10 →
        isNotDelimeter params data j = true := by
    intro k2 hk2
    obtain ⟨h1, h2, h3⟩ := svFind_eq_some data 10 k2 hk2
    exact ⟨h1, h2, fun j hj hj10 => absurd hj10 (h3 j hj)⟩
  have hfuel : ∀ k2, svFind data 10 = some k2 →
      data.length < k2 + (data.length + 1) := by
    intro k2 _
    omega
  obtain ⟨h1, h2, h3, h4⟩ :=
    mbFindGo_sound params data (data.length + 1) (svFind data 10) hInv hfuel k hk
  refine ⟨h1, h2, (isNotDelimeter_eq_false_iff params data k h1 hw).mp h3, ?_⟩
  intro j hj hj10
  have hjlen : j < data.length := by
    by_contra hges
    rw [List.getD_eq_default _ _ (by omega)] at hj10
    omega
  intro hg
  have := (isNotDelimeter_eq_false_iff params data j hjlen hw).mpr hg
  rw [h4 j hj hj10] at this
  exact Bool.true_eq_false.mp this

/-- C3 witness: on the UTF-16LE example the scanner skips the embedded LF
byte at index 2 and accepts the genuine delimiter at index 4. -/
theorem C3_witness :
    1 ≤ utf16leParams.lineFeedWidth ∧
    findNextMultiByteDelimeter utf16leParams
      [65, 0, 10, 1, 10, 0, 66, 0, 10, 0] 10 = some 4 ∧
    genuineDelimiterSpec utf16leParams [65, 0, 10, 1, 10, 0, 66, 0, 10, 0] 4 :=
  ⟨by decide, by decide,
   (C3_multibyte_delimiter utf16leParams [65, 0, 10, 1, 10, 0, 66, 0, 10, 0] 4
      (by decide) (by decide)).1.2.2.1⟩

/-! ### The offsets-ordering invariant for arbitrary encodings -/

/-- One parse-loop iteration, out-of-block break (lines 404-408), for an
arbitrary delimiter function. -/
theorem parseGo_gstep_out (fuel : Nat) (b : Int) (block : List Nat)
    (params : EncodingParameters) (find : FindDelimeter)
    (st : IndexingState) (acc : List Int)
    (hout : st.pos > b + (block.length : Int)) :
    parseDataBlockGo (fuel + 1) b block params find st acc = (acc, st) := by
  simp only [parseDataBlockGo]
  rw [if_pos hout]

/-- One parse-loop iteration, end-of-block at loop entry: the accumulator,
position and file size are unchanged. -/
theorem parseGo_gstep_end (fuel : Nat) (b : Int) (block : List Nat)
    (params : EncodingParameters) (find : FindDelimeter)
    (st : IndexingState) (acc : List Int)
    (hout : ¬st.pos > b + (block.length : Int))
    (hend : (if st.pos ≥ b then st.pos - b else 0) = (block.length : Int)) :
    (parseDataBlockGo (fuel + 1) b block params find st acc).1 = acc ∧
    (parseDataBlockGo (fuel + 1) b block params find st acc).2.pos = st.pos ∧
    (parseDataBlockGo (fuel + 1) b block params find st acc).2.file_size =
      st.file_size := by
  simp only [parseDataBlockGo]
  rw [if_neg hout, hend, if_pos rfl]
  exact ⟨rfl, rfl, rfl⟩

/-- One parse-loop iteration with no delimiter in the rest of the block:
the accumulator, position and file size are unchanged. -/
theorem parseGo_gstep_none (fuel : Nat) (b : Int) (block : List Nat)
    (params : EncodingParameters) (find : FindDelimeter)
    (st : IndexingState) (acc : List Int)
    (hout : ¬st.pos > b + (block.length : Int))
    (hend : (if st.pos ≥ b then st.pos - b else 0) ≠ (block.length : Int))
    (hfind : find params
      (block.drop (if st.pos ≥ b then st.pos - b else 0).toNat) 10 = none) :
    (parseDataBlockGo (fuel + 1) b block params find st acc).1 = acc ∧
    (parseDataBlockGo (fuel + 1) b block params find st acc).2.pos = st.pos ∧
    (parseDataBlockGo (fuel + 1) b block params find st acc).2.file_size =
      st.file_size := by
  simp only [parseDataBlockGo, findNextLineFeed]
  rw [if_neg hout, if_neg hend, hfind]
  simp only [Option.isNone_none, if_true]
  refine ⟨?_, ?_, ?_⟩ <;> trivial

/-- One parse-loop iteration with a delimiter at view index `k`: the loop
appends the offset `posWithinBlock + k - beforeCrOffset + blockBeginning +
lineFeedWidth` and recurses from it. -/
theorem parseGo_gstep_some (fuel : Nat) (b : Int) (block : List Nat)
    (params : EncodingParameters) (find : FindDelimeter)
    (st : IndexingState) (acc : List Int) (k : Nat)
    (hout : ¬st.pos > b + (block.length : Int))
    (hend : (if st.pos ≥ b then st.pos - b else 0) ≠ (block.length : Int))
    (hfind : find params
      (block.drop (if st.pos ≥ b then st.pos - b else 0).toNat) 10 = some k) :
    ∃ st2 : IndexingState,
      parseDataBlockGo (fuel + 1) b block params find st acc =
        parseDataBlockGo fuel b block params find st2
          (acc ++ [(if st.pos ≥ b then st.pos - b else 0) + (k : Int) -
            (params.getBeforeCrOffset : Int) + b +
            (params.lineFeedWidth : Int)]) ∧
      st2.pos = (if st.pos ≥ b then st.pos - b else 0) + (k : Int) -
        (params.getBeforeCrOffset : Int) + b + (params.lineFeedWidth : Int) ∧
      st2.file_size = st.file_size := by
  simp only [parseDataBlockGo, findNextLineFeed]
  rw [if_neg hout, if_neg hend, hfind]
  simp only [Option.isNone_some, Bool.false_eq_true, if_false]
  exact ⟨_, rfl, rfl, rfl⟩

/-- An accepted candidate passed the boundary checks of the rejection test:
forward encodings have the whole code unit inside the slice, backward ones
have `lineFeedWidth - 1` bytes before the candidate. -/
theorem isNotDelimeter_false_bounds (params : EncodingParameters)
    (data : List Nat) (k : Nat)
    (h : isNotDelimeter params data k = false) :
    (params.lineFeedIndex = 0 → k + params.lineFeedWidth ≤ data.length) ∧
    (params.lineFeedIndex ≠ 0 → params.lineFeedWidth - 1 ≤ k) := by
  unfold isNotDelimeter at h
  constructor
  · intro hf
    by_contra hgt
    rw [if_pos ⟨hf, by omega⟩] at h
    exact absurd h (by simp)
  · intro hf
    by_contra hlt
    rw [if_neg (fun hx => hf hx.1), if_pos ⟨hf, by omega⟩] at h
    exact absurd h (by simp)

/-- The delimiter scanner `parseDataBlock` selects (single-byte for width 1,
multi-byte otherwise) only returns candidates whose code unit lies within
the view: at least `beforeCrOffset` bytes precede it and
`lineFeedWidth - beforeCrOffset` bytes from it onward fit in the view. -/
theorem selectedFind_bounds (params : EncodingParameters)
    (hw : 1 ≤ params.lineFeedWidth)
    (hidx : params.lineFeedIndex = 0 ∨
      params.lineFeedIndex = params.lineFeedWidth - 1) :
    ∀ (view : List Nat) (k : Nat),
      (if params.lineFeedWidth = 1 then findNextSingleByteDelimeter
       else findNextMultiByteDelimeter) params view 10 = some k →
      params.getBeforeCrOffset ≤ k ∧
      k + params.lineFeedWidth ≤ view.length + params.getBeforeCrOffset := by
  intro view k hk
  have hbco : params.getBeforeCrOffset = params.lineFeedIndex := rfl
  by_cases h1 : params.lineFeedWidth = 1
  · rw [if_pos h1] at hk
    obtain ⟨hlt, -, -⟩ := svFind_eq_some view 10 k hk
    have hz : params.lineFeedIndex = 0 := by
      rcases hidx with h | h
      · exact h
      · rw [h, h1]
    rw [hbco, hz, h1]
    omega
  · rw [if_neg h1] at hk
    unfold findNextMultiByteDelimeter at hk
    have hInv : ∀ k2, svFind view 10 = some k2 →
        k2 < view.length ∧ view.getD k2 11 = 10 ∧
        ∀ j < k2, view.getD j 11 = 10 →
          isNotDelimeter params view j = true := by
      intro k2 hk2
      obtain ⟨ha, hb2, hc⟩ := svFind_eq_some view 10 k2 hk2
      exact ⟨ha, hb2, fun j hj hj10 => absurd hj10 (hc j hj)⟩
    have hfuel : ∀ k2, svFind view 10 = some k2 →
        view.length < k2 + (view.length + 1) := by
      intro k2 _
      omega
    obtain ⟨hklen, -, hnotdel, -⟩ :=
      mbFindGo_sound params view (view.length + 1) (svFind view 10) hInv
        hfuel k hk
    obtain ⟨hfw, hbw⟩ := isNotDelimeter_false_bounds params view k hnotdel
    by_cases hz : params.lineFeedIndex = 0
    · rw [hbco, hz]
      have := hfw hz
      omega
    · have hwm : params.lineFeedIndex = params.lineFeedWidth - 1 := by
        rcases hidx with h | h
        · exact absurd h hz
        · exact h
      have := hbw hz
      rw [hbco, hwm]
      omega

/-- The parse loop of `parseDataBlock`, for any delimiter function whose
hits lie within the view: the produced offsets extend the accumulator as a
strictly increasing list of offsets above the entry position and at most
the final position, the position never decreases, stays non-negative and
never passes the block end, and the file size is untouched. -/
theorem parseGo_invariant (params : EncodingParameters) (find : FindDelimeter)
    (hbco : (params.getBeforeCrOffset : Int) < (params.lineFeedWidth : Int))
    (hfind : ∀ (view : List Nat) (k : Nat), find params view 10 = some k →
      params.getBeforeCrOffset ≤ k ∧
      k + params.lineFeedWidth ≤ view.length + params.getBeforeCrOffset) :
    ∀ (fuel : Nat) (b : Int) (block : List Nat) (st : IndexingState)
      (acc : List Int),
      0 ≤ b → 0 ≤ st.pos →
      List.Chain' (· < ·) acc →
      (∀ x ∈ acc, x ≤ st.pos) →
      List.Chain' (· < ·)
        (parseDataBlockGo fuel b block params find st acc).1 ∧
      (∀ x ∈ (parseDataBlockGo fuel b block params find st acc).1,
        x ∈ acc ∨ st.pos < x) ∧
      (∀ x ∈ (parseDataBlockGo fuel b block params find st acc).1,
        x ≤ (parseDataBlockGo fuel b block params find st acc).2.pos) ∧
      st.pos ≤ (parseDataBlockGo fuel b block params find st acc).2.pos ∧
      (parseDataBlockGo fuel b block params find st acc).2.pos ≤
        max st.pos (b + (block.length : Int)) ∧
      (parseDataBlockGo fuel b block params find st acc).2.file_size =
        st.file_size := by
  intro fuel
  induction fuel with
  | zero =>
    intro b block st acc hb hpos hchain hacc
    exact ⟨hchain, fun x hx => Or.inl hx, hacc, le_refl _, le_max_left _ _,
      rfl⟩
  | succ fuel ih =>
    intro b block st acc hb hpos hchain hacc
    by_cases hout : st.pos > b + (block.length : Int)
    · rw [parseGo_gstep_out fuel b block params find st acc hout]
      exact ⟨hchain, fun x hx => Or.inl hx, hacc, le_refl _, le_max_left _ _,
        rfl⟩
    · by_cases hend :
        (if st.pos ≥ b then st.pos - b else 0) = (block.length : Int)
      · obtain ⟨e1, e2, e3⟩ :=
          parseGo_gstep_end fuel b block params find st acc hout hend
        rw [e1, e2, e3]
        exact ⟨hchain, fun x hx => Or.inl hx, hacc, le_refl _,
          le_max_left _ _, rfl⟩
      · cases hnf : find params
          (block.drop (if st.pos ≥ b then st.pos - b else 0).toNat) 10 with
        | none =>
          obtain ⟨e1, e2, e3⟩ :=
            parseGo_gstep_none fuel b block params find st acc hout hend hnf
          rw [e1, e2, e3]
          exact ⟨hchain, fun x hx => Or.inl hx, hacc, le_refl _,
            le_max_left _ _, rfl⟩
        | some k =>
          obtain ⟨st2, heq, hp2, hf2⟩ :=
            parseGo_gstep_some fuel b block params find st acc k hout hend hnf
          rw [heq]
          obtain ⟨hk1, hk2⟩ := hfind _ k hnf
          -- Arithmetic facts about the appended offset.
          have hpwb0 : (0 : Int) ≤ (if st.pos ≥ b then st.pos - b else 0) := by
            split_ifs with h
            · omega
            · omega
          have hpwble : (if st.pos ≥ b then st.pos - b else 0) ≤
              (block.length : Int) := by
            split_ifs with h
            · omega
            · positivity
          have htn : (((if st.pos ≥ b then st.pos - b else 0).toNat : Int)) =
              (if st.pos ≥ b then st.pos - b else 0) :=
            Int.toNat_of_nonneg hpwb0
          have hdl : ((block.drop
              (if st.pos ≥ b then st.pos - b else 0).toNat).length : Int) =
              (block.length : Int) -
                (if st.pos ≥ b then st.pos - b else 0) := by
            rw [List.length_drop]
            omega
          have hoffgt :
              st.pos < (if st.pos ≥ b then st.pos - b else 0) + (k : Int) -
                (params.getBeforeCrOffset : Int) + b +
                (params.lineFeedWidth : Int) := by
            have hk1' : ((params.getBeforeCrOffset : Int)) ≤ (k : Int) := by
              exact_mod_cast hk1
            split_ifs with h
            · omega
            · push_neg at h
              omega
          have hoffle :
              (if st.pos ≥ b then st.pos - b else 0) + (k : Int) -
                (params.getBeforeCrOffset : Int) + b +
                (params.lineFeedWidth : Int) ≤ b + (block.length : Int) := by
            have hk2' : (k : Int) + (params.lineFeedWidth : Int) ≤
                ((block.drop
                  (if st.pos ≥ b then st.pos - b else 0).toNat).length : Int) +
                (params.getBeforeCrOffset : Int) := by
              exact_mod_cast hk2
            rw [hdl] at hk2'
            omega
          have hpos2 : 0 ≤ st2.pos := by
            rw [hp2]
            omega
          have hchain2 : List.Chain' (· < ·)
              (acc ++ [(if st.pos ≥ b then st.pos - b else 0) + (k : Int) -
                (params.getBeforeCrOffset : Int) + b +
                (params.lineFeedWidth : Int)]) := by
            refine List.chain'_append.mpr ⟨hchain, by simp, ?_⟩
            intro x hx y hy
            simp only [List.head?_cons, Option.mem_def,
              Option.some.injEq] at hy
            subst hy
            have hxm : x ∈ acc := by
              cases hl : acc.getLast? with
              | none => simp [hl] at hx
              | some z =>
                simp only [hl, Option.mem_def, Option.some.injEq] at hx
                subst hx
                exact List.mem_of_mem_getLast? hl
            have := hacc x hxm
            omega
          have hacc2 : ∀ x ∈ acc ++ [(if st.pos ≥ b then st.pos - b else 0) +
              (k : Int) - (params.getBeforeCrOffset : Int) + b +
              (params.lineFeedWidth : Int)], x ≤ st2.pos := by
            intro x hx
            rcases List.mem_append.mp hx with hx | hx
            · have := hacc x hx
              rw [hp2]
              omega
            · simp only [List.mem_singleton] at hx
              subst hx
              rw [hp2]
          obtain ⟨c1, c2, c3, c4, c5, c6⟩ :=
            ih b block st2 _ hb hpos2 hchain2 hacc2
          refine ⟨c1, ?_, c3, ?_, ?_, ?_⟩
          · intro x hx
            rcases c2 x hx with hx2 | hx2
            · rcases List.mem_append.mp hx2 with hx3 | hx3
              · exact Or.inl hx3
              · simp only [List.mem_singleton] at hx3
                subst hx3
                exact Or.inr hoffgt
            · rw [hp2] at hx2
              exact Or.inr (by omega)
          · rw [hp2] at c4
            omega
          · have : max st2.pos (b + (block.length : Int)) ≤
                max st.pos (b + (block.length : Int)) := by
              rw [hp2]
              apply max_le
              · omega
              · exact le_max_right _ _
            exact le_trans c5 this
          · rw [c6, hf2]

/-- `addAll` always appends the batch to the stored line positions. -/
theorem addAll_linePosition (d : IndexingData) (block : List Nat) (len : Int)
    (lp : FastLinePositionArray) (enc : Option CodecId) :
    (d.addAll block len lp enc).linePosition =
      d.linePosition ++ lp.positions := rfl

/-- `setProgress` does not touch the stored line positions. -/
theorem setProgress_linePosition (d : IndexingData) (p : Int) :
    (d.setProgress p).linePosition = d.linePosition := rfl

/-- `indexNextBlock` preserves the store ordering invariant: the line
positions stay strictly increasing, between 0 and the parser position,
which stays within the file, and the file size is untouched. -/
theorem indexNextBlock_invariant (params : EncodingParameters)
    (detected : CodecId)
    (hbco : (params.getBeforeCrOffset : Int) < (params.lineFeedWidth : Int))
    (hfind : ∀ (view : List Nat) (k : Nat),
      (if params.lineFeedWidth = 1 then findNextSingleByteDelimeter
       else findNextMultiByteDelimeter) params view 10 = some k →
      params.getBeforeCrOffset ≤ k ∧
      k + params.lineFeedWidth ≤ view.length + params.getBeforeCrOffset)
    (N : Int) (st : IndexingState) (d : IndexingData) (bb : Nat)
    (blk : List Nat)
    (hblk : (bb : Int) + (blk.length : Int) ≤ N)
    (hpos : 0 ≤ st.pos) (hposN : st.pos ≤ N)
    (hchain : List.Chain' (· < ·) d.linePosition)
    (hx : ∀ x ∈ d.linePosition, 0 ≤ x ∧ x ≤ st.pos) :
    List.Chain' (· < ·)
      (indexNextBlockModel params detected st d bb blk).2.1.linePosition ∧
    (∀ x ∈ (indexNextBlockModel params detected st d bb
        blk).2.1.linePosition,
      0 ≤ x ∧ x ≤ (indexNextBlockModel params detected st d bb blk).1.pos) ∧
    0 ≤ (indexNextBlockModel params detected st d bb blk).1.pos ∧
    (indexNextBlockModel params detected st d bb blk).1.pos ≤ N ∧
    (indexNextBlockModel params detected st d bb blk).1.file_size =
      st.file_size := by
  simp only [indexNextBlockModel, parseDataBlock]
  by_cases hemp : blk.isEmpty
  · simp only [hemp, if_true, setEncodingGuess_linePosition]
    exact ⟨hchain, hx, hpos, hposN, by trivial⟩
  · simp only [hemp, Bool.false_eq_true, if_false]
    obtain ⟨c1, c2, c3, c4, c5, c6⟩ :=
      parseGo_invariant params
        (if params.lineFeedWidth = 1 then findNextSingleByteDelimeter
         else findNextMultiByteDelimeter) hbco hfind (blk.length + 2)
        (bb : Int) blk
        { st with encodingGuess := some (st.encodingGuess.getD detected) }
        [] (by positivity) hpos List.chain'_nil (by simp)
    set P := parseDataBlockGo (blk.length + 2) (bb : Int) blk params (if params.lineFeedWidth = 1 then findNextSingleByteDelimeter else findNextMultiByteDelimeter) { st with encodingGuess := some (st.encodingGuess.getD detected) } [] with hP
    simp only [iteTriple_fst, iteTriple_snd,
      apply_ite IndexingData.linePosition, setProgress_linePosition,
      addAll_linePosition, ite_self]
    have hmax : max st.pos ((bb : Int) + (blk.length : Int)) ≤ N :=
      max_le hposN hblk
    have hst : ({ st with encodingGuess := some (st.encodingGuess.getD detected) } : IndexingState).pos = st.pos := rfl
    rw [hst] at c2 c4
    refine ⟨?_, ?_, by omega, by omega, c6⟩
    · refine List.chain'_append.mpr ⟨hchain, c1, ?_⟩
      intro x hx2 y hy
      have hym : y ∈ P.1 := by
        cases hl : P.1.head? with
        | none => simp [hl] at hy
        | some z =>
          simp only [hl, Option.mem_def, Option.some.injEq] at hy
          subst hy
          exact List.mem_of_mem_head? hl
      have hxm : x ∈ d.linePosition := by
        cases hl : d.linePosition.getLast? with
        | none => simp [hl] at hx2
        | some z =>
          simp only [hl, Option.mem_def, Option.some.injEq] at hx2
          subst hx2
          exact List.mem_of_mem_getLast? hl
      rcases c2 y hym with hy2 | hy2
      · simp at hy2
      · have := (hx x hxm).2
        omega
    · intro x hx2
      rcases List.mem_append.mp hx2 with hx3 | hx3
      · have := hx x hx3
        exact ⟨this.1, by omega⟩
      · rcases c2 x hx3 with hx4 | hx4
        · simp at hx4
        · exact ⟨by omega, c3 x hx3⟩

/-- The block-queue fold preserves the store ordering invariant for any
block list lying within the file. -/
theorem indexBlocks_invariant (params : EncodingParameters)
    (detected : CodecId)
    (hbco : (params.getBeforeCrOffset : Int) < (params.lineFeedWidth : Int))
    (hfind : ∀ (view : List Nat) (k : Nat),
      (if params.lineFeedWidth = 1 then findNextSingleByteDelimeter
       else findNextMultiByteDelimeter) params view 10 = some k →
      params.getBeforeCrOffset ≤ k ∧
      k + params.lineFeedWidth ≤ view.length + params.getBeforeCrOffset)
    (N : Int) :
    ∀ (blocks : List (Nat × List Nat)) (st : IndexingState)
      (d : IndexingData) (events : List IndexAction),
      (∀ bb blk, (bb, blk) ∈ blocks →
        (bb : Int) + (blk.length : Int) ≤ N) →
      0 ≤ st.pos → st.pos ≤ N →
      List.Chain' (· < ·) d.linePosition →
      (∀ x ∈ d.linePosition, 0 ≤ x ∧ x ≤ st.pos) →
      List.Chain' (· < ·)
        (indexBlocksGo params detected blocks st d
          events).2.1.linePosition ∧
      (∀ x ∈ (indexBlocksGo params detected blocks st d
          events).2.1.linePosition,
        0 ≤ x ∧
          x ≤ (indexBlocksGo params detected blocks st d events).1.pos) ∧
      0 ≤ (indexBlocksGo params detected blocks st d events).1.pos ∧
      (indexBlocksGo params detected blocks st d events).1.pos ≤ N ∧
      (indexBlocksGo params detected blocks st d events).1.file_size =
        st.file_size := by
  intro blocks
  induction blocks with
  | nil =>
    intro st d events hbl hpos hposN hchain hx
    exact ⟨hchain, hx, hpos, hposN, rfl⟩
  | cons blkp rest ih =>
    obtain ⟨bb, blk⟩ := blkp
    intro st d events hbl hpos hposN hchain hx
    rw [indexBlocksGo]
    obtain ⟨b1, b2, b3, b4, b5⟩ :=
      indexNextBlock_invariant params detected hbco hfind N st d bb blk
        (hbl bb blk (List.mem_cons_self _ _)) hpos hposN hchain hx
    obtain ⟨d1, d2, d3, d4, d5⟩ :=
      ih (indexNextBlockModel params detected st d bb blk).1
        (indexNextBlockModel params detected st d bb blk).2.1
        (events ++ (indexNextBlockModel params detected st d bb blk).2.2)
        (fun bb2 blk2 h => hbl bb2 blk2 (List.mem_cons_of_mem _ h))
        b3 b4 b1 b2
    exact ⟨d1, d2, d3, d4, by rw [d5, b5]⟩

/-- Every block emitted by the reader lies within the remaining file. -/
theorem chunksGo_bounds (blockSize : Nat) :
    ∀ (fuel off : Nat) (file : List Nat) (bb : Nat) (blk : List Nat),
      (bb, blk) ∈ chunksGo blockSize fuel off file →
      off ≤ bb ∧ bb + blk.length ≤ off + file.length := by
  intro fuel
  induction fuel with
  | zero =>
    intro off file bb blk h
    simp [chunksGo] at h
  | succ fuel ih =>
    intro off file bb blk h
    rw [chunksGo] at h
    by_cases hemp : file.isEmpty
    · rw [if_pos hemp] at h
      simp at h
    · rw [if_neg hemp] at h
      rcases List.mem_cons.mp h with h | h
      · have h1 : bb = off := (Prod.mk.injEq _ _ _ _).mp h |>.1
        have h2 : blk = file.take blockSize :=
          (Prod.mk.injEq _ _ _ _).mp h |>.2
        subst h1
        subst h2
        have : (file.take blockSize).length ≤ file.length := by
          rw [List.length_take]
          exact min_le_right _ _
        omega
      · by_cases hbs : blockSize ≤ file.length
        · have := ih (off + blockSize) (file.drop blockSize) bb blk h
          rw [List.length_drop] at this
          omega
        · have hdrop : file.drop blockSize = [] :=
            List.drop_eq_nil_of_le (by omega)
          rw [hdrop, chunksGo_nil] at h
          simp at h

/-- An upper bound on all elements bounds `getLastD 0`. -/
theorem getLastD_upper (l : List Int) (M : Int) (h0 : 0 ≤ M)
    (h : ∀ x ∈ l, x ≤ M) : l.getLastD 0 ≤ M := by
  rw [List.getLastD_eq_getLast?]
  cases hl : l.getLast? with
  | none => simpa using h0
  | some z =>
    simp only [Option.getD_some]
    exact h z (List.mem_of_mem_getLast? hl)

/-- First projection of a branch-wise pair. -/
theorem itePair_fst {c : Prop} [inst : Decidable c] {α β : Type}
    (a1 a2 : α) (b1 b2 : β) :
    (if c then (a1, b1) else (a2, b2)).1 = if c then a1 else a2 := by
  split_ifs <;> rfl

/-- `clear` empties the stored line positions. -/
theorem clear_linePosition (fastConfig : Bool) (d : IndexingData) :
    (IndexingData.clear fastConfig d).linePosition = [] := rfl

/-- C2: for every indexed file, under any encoding of the modelled domain
(`lineFeedWidth ≥ 1`, LF byte first or last in its code unit), interrupted
or not, openable or not, the stored line offsets are strictly increasing,
non-negative, and the last offset is at most `file_size + 1`. -/
theorem C2_offsets_ordered (params : EncodingParameters) (f : FileModel)
    (fastConfig interrupt : Bool) (detected : CodecId)
    (forced : Option CodecId) (d : IndexingData) (blockSize : Nat)
    (hw : 1 ≤ params.lineFeedWidth)
    (hidx : params.lineFeedIndex = 0 ∨
      params.lineFeedIndex = params.lineFeedWidth - 1) :
    List.Chain' (· < ·)
      (fullIndexRun params fastConfig detected blockSize interrupt forced f
        d).1.linePosition ∧
    (∀ x ∈ (fullIndexRun params fastConfig detected blockSize interrupt
        forced f d).1.linePosition, 0 ≤ x) ∧
    (fullIndexRun params fastConfig detected blockSize interrupt forced f
        d).1.linePosition.getLastD 0 ≤ (f.content.length : Int) + 1 := by
  have hbcoN : params.getBeforeCrOffset < params.lineFeedWidth := by
    show params.lineFeedIndex < params.lineFeedWidth
    rcases hidx with h | h
    · omega
    · omega
  have hbco : (params.getBeforeCrOffset : Int) <
      (params.lineFeedWidth : Int) := by
    exact_mod_cast hbcoN
  have hfindb := selectedFind_bounds params hw hidx
  have hN0 : (0 : Int) ≤ (f.content.length : Int) := by positivity
  by_cases hopen : f.canOpen
  · simp only [fullIndexRun, doIndexModel, IndexingData.clear,
      IndexingData.forceEncoding, hopen, not_true, Bool.false_eq_true,
      if_false, Int.toNat_zero, List.drop_zero, chunks]
    obtain ⟨K1, K2, K3, K4, K5⟩ :=
      indexBlocks_invariant params detected hbco hfindb
        (f.content.length : Int)
        (if interrupt then [] else
          chunksGo blockSize f.content.length 0 f.content)
        { pos := 0, file_size := (f.content.length : Int),
          encodingGuess := none }
        { encodingForced := forced, useFastModificationDetection :=
          fastConfig } []
        (by
          intro bb blk h
          by_cases hi : interrupt
          · rw [if_pos hi] at h
            simp at h
          · rw [if_neg hi] at h
            have := chunksGo_bounds blockSize f.content.length 0 f.content
              bb blk h
            have h2 := this.2
            exact_mod_cast (by omega : ((bb + blk.length : Nat) : Int) ≤
              (f.content.length : Int)))
        (by simp) (by simp) (by simp) (by simp)
    set F := indexBlocksGo params detected
      (if interrupt then [] else
        chunksGo blockSize f.content.length 0 f.content)
      { pos := 0, file_size := (f.content.length : Int),
        encodingGuess := none }
      { encodingForced := forced, useFastModificationDetection :=
        fastConfig } [] with hF
    have K5' : F.1.file_size = (f.content.length : Int) := K5
    have hposfs : F.1.pos ≤ F.1.file_size := by
      rw [K5']
      exact K4
    have HA : List.Chain' (· < ·)
        (F.2.1.linePosition ++ [F.1.file_size + 1]) := by
      refine List.chain'_append.mpr ⟨K1, by simp, ?_⟩
      intro x hx y hy
      simp only [List.head?_cons, Option.mem_def, Option.some.injEq] at hy
      subst hy
      have hxm : x ∈ F.2.1.linePosition := by
        cases hl : F.2.1.linePosition.getLast? with
        | none => simp [hl] at hx
        | some z =>
          simp only [hl, Option.mem_def, Option.some.injEq] at hx
          subst hx
          exact List.mem_of_mem_getLast? hl
      have := (K2 x hxm).2
      omega
    have HB : ∀ x ∈ F.2.1.linePosition ++ [F.1.file_size + 1], 0 ≤ x := by
      intro x hx
      rcases List.mem_append.mp hx with hx | hx
      · exact (K2 x hx).1
      · simp only [List.mem_singleton] at hx
        subst hx
        rw [K5']
        omega
    have HC : (F.2.1.linePosition ++ [F.1.file_size + 1]).getLastD 0 ≤
        (f.content.length : Int) + 1 := by
      rw [getLastD_append]
      simp [K5']
    have HD : F.2.1.linePosition.getLastD 0 ≤ (f.content.length : Int) + 1 := by
      refine getLastD_upper _ _ (by omega) ?_
      intro x hx
      have := (K2 x hx).2
      omega
    simp only [itePair_fst, apply_ite IndexingData.linePosition,
      setHeaderHash_linePosition, setTailHash_linePosition,
      setEncodingGuess_linePosition, setProgress_linePosition,
      clear_linePosition, addAll_empty_linePosition, ite_self]
    refine ⟨?_, ?_, ?_⟩ <;>
      split_ifs <;>
        first
          | exact HA
          | exact HB
          | exact HC
          | exact HD
          | exact K1
          | (intro x hx; exact (K2 x hx).1)
          | (simp; done)
          | (simp; omega)
  · simp only [fullIndexRun, doIndexModel, hopen, Bool.false_eq_true,
      not_false_iff, if_true, setProgress_linePosition,
      setEncodingGuess_linePosition, clear_linePosition]
    refine ⟨by simp, by simp, by simp; omega⟩

/-- C2 witness: the invariant holds for the UTF-16LE example file, a
multi-byte encoding. -/
theorem C2_witness :
    1 ≤ utf16leParams.lineFeedWidth ∧
    (utf16leParams.lineFeedIndex = 0 ∨
      utf16leParams.lineFeedIndex = utf16leParams.lineFeedWidth - 1) ∧
    List.Chain' (· < ·)
      (fullIndexRun utf16leParams false (CodecId.other 1) 4 false none
        ⟨true, [65, 0, 10, 1, 10, 0, 66, 0, 10, 0]⟩ {}).1.linePosition :=
  ⟨by decide, by decide,
   (C2_offsets_ordered utf16leParams
      ⟨true, [65, 0, 10, 1, 10, 0, 66, 0, 10, 0]⟩ false false
      (CodecId.other 1) none {} 4 (by decide) (by decide)).1⟩
